import Mathlib

/-!
Verification of the High-Low Trading game engine: a shallow embedding of
the action codec, the Lehmer permutation codec, the continuous
double-auction matching engine (including the exact binary-heap layout of
the `std::priority_queue` it is built on, as implemented by libstdc++),
and the game state machine, together with proofs and refutations of the
specified properties.

Modelling conventions:
* C++ `int` / `int64_t` values are `Int`; `uint64_t` sizes/tids/ids are
  `Nat`.  All game quantities stay far below any overflow boundary for the
  configurations admitted by the game (4-10 players, small parameters), so
  unbounded integers are a faithful model there; theorems that quantify
  over configurations carry the corresponding bounds as hypotheses.
* Order prices are C++ `double`, but every price the game ever stores is a
  small integer, on which `double` arithmetic and comparisons are exact,
  so prices are modelled as `Int`.
* A `SpielFatalError` (and an uncaught `std::bad_variant_access` from
  `std::get` on a mismatched variant) is modelled by `Option.none`.
* Loops are translated as structural recursion on an explicit iteration
  budget chosen at the call site to be at least the number of iterations
  the loop can perform (given with each definition), so that the budget
  branch is never reached and the functions compute by kernel reduction.
-/

namespace HighLowTrading

/-- Player roles, from `action_manager.h` (`enum class PlayerRole`). -/
inductive PlayerRole where
  | kValueCheater
  | kHighLowCheater
  | kCustomer
deriving DecidableEq

/-- Game phases, from `action_manager.h` (`enum class GamePhase`). -/
inductive GamePhase where
  | kChanceValue
  | kChanceHighLow
  | kChancePermutation
  | kCustomerSize
  | kPlayerTrading
  | kTerminal
deriving DecidableEq

/-- Game configuration, from `action_manager.h` (`class Config`).  All five
parameters are C++ `int`; the game only constructs configurations with
positive entries, so they are modelled as `Nat`. -/
structure Config where
  steps_per_player : Nat
  max_contracts_per_trade : Nat
  customer_max_size : Nat
  max_contract_value : Nat
  num_players : Nat
deriving DecidableEq

/-- Factorial, from `action_manager.cc` (`int factorial(int n)`): the loop
`result *= i` for `i = 1..n` computes `n!`. -/
def factorial : Nat → Nat
  | 0 => 1
  | n + 1 => factorial n * (n + 1)

/-- Phase of a move index, from `action_manager.cc`
(`ActionManager::game_phase_of_timestep`).  The C++ function takes an
`int` and fatals on negative input; every caller passes the non-negative
`MoveNumber()`, so the model takes a `Nat`. -/
def game_phase_of_timestep (c : Config) (t : Nat) : GamePhase :=
  if t < 2 then .kChanceValue
  else if t = 2 then .kChanceHighLow
  else if t = 3 then .kChancePermutation
  else if t < 4 + c.num_players then .kCustomerSize
  else if t < 4 + c.num_players + c.steps_per_player * c.num_players then .kPlayerTrading
  else .kTerminal

/-- Inclusive action range of a phase, from `action_manager.cc`
(`ActionManager::valid_action_range`); `none` models the fatal error on
`kTerminal`. -/
def valid_action_range (c : Config) : GamePhase → Option (Int × Int)
  | .kChanceValue => some (0, (c.max_contract_value : Int) - 1)
  | .kChanceHighLow => some (0, 1)
  | .kChancePermutation => some (0, (factorial c.num_players : Int) - 1)
  | .kCustomerSize => some (0, 2 * (c.customer_max_size : Int))
  | .kPlayerTrading =>
      some (0, ((c.max_contracts_per_trade + 1) * (c.max_contracts_per_trade + 1) *
        c.max_contract_value * c.max_contract_value : Int) - 1)
  | .kTerminal => none

/-- Lehmer digits of `x` for a pool of size `n`, from `action_manager.cc`
(`nth_permutation`, first two loops): digit `i` is `x / fact[n-1-i]`
with `x` replaced by the remainder. -/
def lehmerDigits : Nat → Nat → List Nat
  | _, 0 => []
  | x, n + 1 => x / factorial n :: lehmerDigits (x % factorial n) n

/-- Decoding Lehmer digits against a shrinking pool, from
`action_manager.cc` (`nth_permutation`, final loop): `perm.push_back(pool[d])`
then `pool.erase(pool.begin() + d)`. -/
def pickSeq : List Nat → List Nat → List Nat
  | [], _ => []
  | d :: ds, pool => pool.getD d 0 :: pickSeq ds (pool.eraseIdx d)

/-- The `x`-th permutation of `[0, n)`, from `action_manager.cc`
(`std::vector<int> nth_permutation(int x, int n)`). -/
def nth_permutation (x n : Nat) : List Nat :=
  pickSeq (lehmerDigits x n) (List.range n)

/-- Rank accumulation over a shrinking pool, from `action_manager.cc`
(`permutation_rank`, main loop): `idx` is the position of `perm[i]` in the
pool (`std::find`), the contribution is `idx * fact[n - 1 - i]`, and the
found element is erased.  At step `i` the pool has `n - i` elements, so
`fact[n - 1 - i] = factorial (pool.length - 1)`. -/
def rankAux : List Nat → List Nat → Nat
  | [], _ => 0
  | p :: ps, pool =>
      let idx := pool.indexOf p
      idx * factorial (pool.length - 1) + rankAux ps (pool.eraseIdx idx)

/-- Rank of a permutation, from `action_manager.cc`
(`int permutation_rank(const std::vector<int>& perm)`). -/
def permutation_rank (perm : List Nat) : Nat :=
  rankAux perm (List.range perm.length)

/-- Player quote fields, from `action_manager.h` (`class PlayerQuoteAction`,
also spelled `PlayerTradingAction` in `action_manager.cc`; both name the
same four-field record, constructed as
`(bid_size, bid_price, ask_size, ask_price)`). -/
structure PlayerQuoteAction where
  bid_size : Int
  bid_price : Int
  ask_size : Int
  ask_price : Int
deriving DecidableEq

/-- Structured actions, from `action_manager.h` (`using ActionVariant =
std::variant<...>`). -/
inductive ActionVariant where
  | contractValue (v : Int)
  | highLow (is_high : Bool)
  | quote (q : PlayerQuoteAction)
  | permutation (roles : List PlayerRole) (perm : List Nat)
  | customerSize (size : Int)
deriving DecidableEq

/-- Role list derived from a permutation, from `action_manager.cc`
(`RawToStructuredAction`, `kChancePermutation` branch): slot `i` is a
`ValueCheater` when `perm[i]` is 0 or 1, the `HighLowCheater` when it is
2, and a `Customer` otherwise. -/
def rolesOfPerm (perm : List Nat) : List PlayerRole :=
  perm.map fun p =>
    if p = 0 ∨ p = 1 then .kValueCheater
    else if p = 2 then .kHighLowCheater
    else .kCustomer

/-- Decoder, from `action_manager.cc` (`ActionManager::RawToStructuredAction`).
`none` models the fatal errors (range violation, terminal phase).  After the
range check the raw action is non-negative, so the `kPlayerTrading` integer
divisions are computed on `k.toNat`, which agrees with C++ `int` division on
non-negative operands. -/
def RawToStructuredAction (c : Config) (phase : GamePhase) (k : Int) :
    Option ActionVariant :=
  match valid_action_range c phase with
  | none => none
  | some (lo, hi) =>
    if k < lo ∨ hi < k then none
    else
      match phase with
      | .kChanceValue => some (.contractValue (k + 1))
      | .kChanceHighLow =>
          if k ≠ 0 ∧ k ≠ 1 then none
          else some (.highLow (k == 1))
      | .kChancePermutation =>
          if k < 0 ∨ (factorial c.num_players : Int) ≤ k then none
          else
            let perm := nth_permutation k.toNat c.num_players
            some (.permutation (rolesOfPerm perm) perm)
      | .kCustomerSize =>
          if k < 0 ∨ 2 * (c.customer_max_size : Int) < k then none
          else
            let cs := k - (c.customer_max_size : Int)
            some (.customerSize (if 0 ≤ cs then cs + 1 else cs))
      | .kPlayerTrading =>
          let kn := k.toNat
          let bid_size_denom :=
            (c.max_contracts_per_trade + 1) * c.max_contract_value * c.max_contract_value
          let bid_size := kn / bid_size_denom
          let r1 := kn % bid_size_denom
          let ask_size_denom := c.max_contract_value * c.max_contract_value
          let ask_size := r1 / ask_size_denom
          let r2 := r1 % ask_size_denom
          let bid_price := r2 / c.max_contract_value + 1
          let ask_price := r2 % c.max_contract_value + 1
          some (.quote ⟨(bid_size : Int), (bid_price : Int), (ask_size : Int), (ask_price : Int)⟩)
      | .kTerminal => none

/-- Encoder, from `action_manager.cc` (`ActionManager::StructuredToRawAction`).
`none` models the terminal-phase fatal error and the `std::get` exception on
a variant that does not match the phase. -/
def StructuredToRawAction (c : Config) (phase : GamePhase) (a : ActionVariant) :
    Option Int :=
  match phase, a with
  | .kChanceValue, .contractValue v => some (v - 1)
  | .kChanceHighLow, .highLow b => some (if b then 1 else 0)
  | .kChancePermutation, .permutation _ p => some (permutation_rank p)
  | .kCustomerSize, .customerSize sz =>
      some ((if 0 < sz then sz - 1 else sz) + (c.customer_max_size : Int))
  | .kPlayerTrading, .quote q =>
      some ((q.ask_price - 1) + (q.bid_price - 1) * (c.max_contract_value : Int) +
        q.ask_size * ((c.max_contract_value : Int) * c.max_contract_value) +
        q.bid_size * (((c.max_contracts_per_trade : Int) + 1) *
          c.max_contract_value * c.max_contract_value))
  | _, _ => none

/-! ## The matching engine (`market.h`, `market.cc`) -/

/-- A resting order, from `market.h` (`class OrderEntry`). -/
structure OrderEntry where
  price : Int
  size : Nat
  tid : Nat
  customer_id : Nat
  is_bid : Bool
deriving DecidableEq

instance : Inhabited OrderEntry := ⟨⟨0, 0, 0, 0, false⟩⟩

/-- A fill record, from `market.h` (`class OrderFillEntry`). -/
structure OrderFillEntry where
  price : Int
  size : Nat
  tid : Nat
  quote_size : Nat
  quoter_id : Nat
  customer_id : Nat
  quote_tid : Nat
  is_sell_quote : Bool
deriving DecidableEq

/-- The order comparator, from `market.h` (`struct OrderEntryLess`): for buy
orders, `a.price < b.price`; for sell orders, `a.price > b.price`.  Each
queue only ever holds orders of one side, so the cross-side fatal branch
never fires and is not modelled.  Note the comparator looks only at the
price: it has no tid tie-break. -/
def OrderEntryLess (a b : OrderEntry) : Bool :=
  if a.is_bid then decide (a.price < b.price) else decide (b.price < a.price)

/-- Sift-up of `std::__push_heap` (libstdc++ `bits/stl_heap.h`), used by
`std::priority_queue::push` and as the last step of `__adjust_heap`: while
the hole is below `top` and the parent compares below `value`, move the
parent down; finally place `value` in the hole.  The hole index strictly
decreases each iteration, so an iteration budget equal to the initial hole
index is sufficient; when the budget is 0 the hole is 0 and the budget
branch coincides with the loop's exit. -/
def siftUpF (comp : OrderEntry → OrderEntry → Bool) :
    Nat → List OrderEntry → Nat → Nat → OrderEntry → List OrderEntry
  | 0, l, hole, _, value => l.set hole value
  | fuel + 1, l, hole, top, value =>
      if top < hole then
        let parent := (hole - 1) / 2
        if comp (l.getD parent default) value then
          siftUpF comp fuel (l.set hole (l.getD parent default)) parent top value
        else l.set hole value
      else l.set hole value

/-- `std::__push_heap` with hole `hole`, top `top` and value `value`. -/
def siftUp (comp : OrderEntry → OrderEntry → Bool)
    (l : List OrderEntry) (hole top : Nat) (value : OrderEntry) : List OrderEntry :=
  siftUpF comp hole l hole top value

/-- `std::priority_queue::push` (libstdc++): append, then sift the new last
element up from hole `size - 1`. -/
def heapPush (comp : OrderEntry → OrderEntry → Bool)
    (l : List OrderEntry) (x : OrderEntry) : List OrderEntry :=
  let l' := l ++ [x]
  siftUp comp l' (l'.length - 1) 0 x

/-- The descent loop of `std::__adjust_heap` (libstdc++): from hole `sc`,
while `sc < (len - 1) / 2`, step to the larger child (`secondChild`,
decremented when the right child compares below the left) and move it into
the hole.  In `__adjust_heap` the hole index and `secondChild` start equal
(both 0 here) and are updated to the same value each iteration, so a single
index models both.  `sc` strictly increases, so a budget of `len` is
sufficient; the budget branch coincides with the loop exit for in-budget
calls. -/
def adjustLoopF (comp : OrderEntry → OrderEntry → Bool) :
    Nat → List OrderEntry → Nat → Nat → List OrderEntry × Nat
  | 0, l, sc, _ => (l, sc)
  | fuel + 1, l, sc, len =>
      if sc < (len - 1) / 2 then
        let sc1 := 2 * (sc + 1)
        let sc2 :=
          if comp (l.getD sc1 default) (l.getD (sc1 - 1) default) then sc1 - 1 else sc1
        adjustLoopF comp fuel (l.set sc (l.getD sc2 default)) sc2 len
      else (l, sc)

/-- `std::__adjust_heap` (libstdc++) on the whole list with initial hole 0:
the descent loop, the special last step for an even-length range whose hole
stopped at the last internal node, then sift `value` back up. -/
def adjustHeap (comp : OrderEntry → OrderEntry → Bool)
    (l : List OrderEntry) (value : OrderEntry) : List OrderEntry :=
  let len := l.length
  let r := adjustLoopF comp len l 0 len
  let l1 := r.1
  let h1 := r.2
  if len % 2 = 0 ∧ h1 = (len - 2) / 2 then
    let sc2 := 2 * (h1 + 1)
    siftUp comp (l1.set h1 (l1.getD (sc2 - 1) default)) (sc2 - 1) 0 value
  else siftUp comp l1 h1 0 value

/-- `std::priority_queue::pop` (libstdc++ `pop_heap` + `pop_back`): for two
or more elements, take the last element as the value, drop the last slot
and re-heapify the remaining range from hole 0; for at most one element the
result is empty. -/
def heapPop (comp : OrderEntry → OrderEntry → Bool)
    (l : List OrderEntry) : List OrderEntry :=
  if l.length ≤ 1 then []
  else adjustHeap comp l.dropLast (l.getD (l.length - 1) default)

/-- `std::priority_queue::top` is the front of the heap array. -/
def heapTop (l : List OrderEntry) : OrderEntry :=
  l.getD 0 default

/-- The market's two order queues, from `market.h` (`class Market`). -/
structure Market where
  buy_orders : List OrderEntry
  sell_orders : List OrderEntry
deriving DecidableEq

/-- Result of one iteration of the `Market::MatchOrders` loop. -/
inductive MatchStepResult where
  | stop
  | fatal
  | trade (f : OrderFillEntry) (m : Market)
deriving DecidableEq

/-- One iteration of the matching loop, from `market.cc`
(`Market::MatchOrders`): stop if a side is empty or the tops do not cross;
otherwise pop both, fatal if they share a tid, else emit the fill (the
quote is the smaller-tid order, the trade executes at the quote's price and
at the minimum size) and re-push any non-zero residual with its original
price and tid. -/
def matchStep (m : Market) : MatchStepResult :=
  if m.buy_orders.isEmpty || m.sell_orders.isEmpty then .stop
  else
    let buy_order := heapTop m.buy_orders
    let sell_order := heapTop m.sell_orders
    if buy_order.price < sell_order.price then .stop
    else
      let buys' := heapPop OrderEntryLess m.buy_orders
      let sells' := heapPop OrderEntryLess m.sell_orders
      if buy_order.tid = sell_order.tid then .fatal
      else
        let is_sell_quote := decide (sell_order.tid < buy_order.tid)
        let trade_price := if is_sell_quote then sell_order.price else buy_order.price
        let trade_size := min buy_order.size sell_order.size
        let tid := if is_sell_quote then sell_order.tid else buy_order.tid
        let quote_size := if is_sell_quote then sell_order.size else buy_order.size
        let quoter_id := if is_sell_quote then sell_order.customer_id else buy_order.customer_id
        let customer_id := if is_sell_quote then buy_order.customer_id else sell_order.customer_id
        let quote_tid := if is_sell_quote then sell_order.tid else buy_order.tid
        let fill : OrderFillEntry :=
          ⟨trade_price, trade_size, tid, quote_size, quoter_id, customer_id, quote_tid,
            is_sell_quote⟩
        let remaining_sell_size := sell_order.size - trade_size
        let remaining_buy_size := buy_order.size - trade_size
        let sells'' :=
          if remaining_sell_size > 0 then
            heapPush OrderEntryLess sells'
              ⟨sell_order.price, remaining_sell_size, sell_order.tid, sell_order.customer_id,
                false⟩
          else sells'
        let buys'' :=
          if remaining_buy_size > 0 then
            heapPush OrderEntryLess buys'
              ⟨buy_order.price, remaining_buy_size, buy_order.tid, buy_order.customer_id, true⟩
          else buys'
        .trade fill ⟨buys'', sells''⟩

/-- The matching loop, from `market.cc` (`Market::MatchOrders`), iterated on
a budget.  Each `trade` iteration pops one order from each queue and
re-pushes at most one (the two residuals cannot both be positive), so the
total queue length strictly decreases and a budget equal to the total queue
length is sufficient; the budget branch is then never reached.  `none`
models the fatal error. -/
def matchOrdersF : Nat → Market → Option (List OrderFillEntry × Market)
  | 0, m => some ([], m)
  | fuel + 1, m =>
      match matchStep m with
      | .stop => some ([], m)
      | .fatal => none
      | .trade f m' =>
          match matchOrdersF fuel m' with
          | none => none
          | some (fs, m'') => some (f :: fs, m'')

/-- `Market::MatchOrders`, run with a sufficient budget. -/
def MatchOrders (m : Market) : Option (List OrderFillEntry × Market) :=
  matchOrdersF (m.buy_orders.length + m.sell_orders.length) m

/-- `Market::AddOrder`: a zero-size order is ignored; otherwise the order
is pushed onto its side's queue and the matching loop runs. -/
def AddOrder (m : Market) (o : OrderEntry) : Option (List OrderFillEntry × Market) :=
  if o.size = 0 then some ([], m)
  else
    let m' :=
      if o.is_bid then { m with buy_orders := heapPush OrderEntryLess m.buy_orders o }
      else { m with sell_orders := heapPush OrderEntryLess m.sell_orders o }
    MatchOrders m'

/-! ## The game state machine (`high_low_trading.h`, `high_low_trading.cc`) -/

/-- Per-player position, from `high_low_trading.h` (`class PlayerPosition`). -/
structure PlayerPosition where
  num_contracts : Int
  cash_balance : Int
deriving DecidableEq

instance : Inhabited PlayerPosition := ⟨⟨0, 0⟩⟩

/-- The game state, from `high_low_trading.h` (`class HighLowTradingState`):
the two drawn contract values, the high/low flag, the role permutation, the
quote log, the positions, the target positions, the fill log, the market,
and the move counter maintained by the framework. -/
structure HighLowTradingState where
  moveNumber : Nat
  contract_value0 : Int
  contract_value1 : Int
  is_high : Bool
  player_roles : List PlayerRole
  permutation : List Nat
  player_quotes : List (Nat × PlayerQuoteAction)
  player_positions : List PlayerPosition
  player_target_positions : List Int
  order_fills : List OrderFillEntry
  market : Market
deriving DecidableEq

/-- Number of chance nodes, from `high_low_trading.h`
(`MaxChanceNodesInHistory`): `4 + (num_players - 3)`. -/
def MaxChanceNodesInHistory (c : Config) : Nat :=
  4 + (c.num_players - 3)

/-- Total game length, from `high_low_trading.h` (`MaxGameLength`):
chance nodes plus `steps_per_player * num_players` trading moves. -/
def MaxGameLength (c : Config) : Nat :=
  MaxChanceNodesInHistory c + c.steps_per_player * c.num_players

/-- Terminal test, from `high_low_trading.cc`
(`HighLowTradingState::IsTerminal`): `MoveNumber() >= MaxGameLength()`. -/
def IsTerminal (c : Config) (s : HighLowTradingState) : Bool :=
  decide (MaxGameLength c ≤ s.moveNumber)

/-- The initial state, from `high_low_trading.cc`
(`HighLowTradingState::HighLowTradingState`). -/
def initialState (c : Config) : HighLowTradingState where
  moveNumber := 0
  contract_value0 := 0
  contract_value1 := 0
  is_high := false
  player_roles := List.replicate c.num_players .kCustomer
  permutation := List.replicate c.num_players 0
  player_quotes := []
  player_positions := List.replicate c.num_players ⟨0, 0⟩
  player_target_positions := List.replicate c.num_players 0
  order_fills := []
  market := ⟨[], []⟩

/-- Read-modify-write of one player's position, used by the fill loop of
`HighLowTradingState::DoApplyAction` (`player_positions_[id].field op= v`). -/
def updatePosition (ps : List PlayerPosition) (i : Nat) (dContracts dCash : Int) :
    List PlayerPosition :=
  let p := ps.getD i default
  ps.set i ⟨p.num_contracts + dContracts, p.cash_balance + dCash⟩

/-- Application of one fill to the two parties' positions, from the fill
loop of `HighLowTradingState::DoApplyAction`: against a sell quote the
crossing customer buys (contracts up, cash down) and the quoter mirrors;
against a buy quote the signs flip. -/
def applyFill (ps : List PlayerPosition) (f : OrderFillEntry) : List PlayerPosition :=
  if f.is_sell_quote then
    updatePosition
      (updatePosition ps f.customer_id (f.size : Int) (-(f.price * (f.size : Int))))
      f.quoter_id (-(f.size : Int)) (f.price * (f.size : Int))
  else
    updatePosition
      (updatePosition ps f.customer_id (-(f.size : Int)) (f.price * (f.size : Int)))
      f.quoter_id (f.size : Int) (-(f.price * (f.size : Int)))

/-- One action application, from `high_low_trading.cc`
(`HighLowTradingState::DoApplyAction`), followed by the framework's move
counter increment (`State::ApplyAction`).  `none` models the fatal checks
(`SPIEL_CHECK_LT(move_number, MaxGameLength())`, the `max_action < 0`
fatal, `SPIEL_CHECK_LE(move, max_action)`, the decoder's fatals) and the
`std::get` exception when the decoded variant does not match the branch
taken.  In the trading branch the acting player is
`CurrentPlayer() = (move_number - MaxChanceNodesInHistory()) % num_players`,
the bid is submitted with tid `2 * move_number` and the ask with tid
`2 * move_number + 1`, and the concatenated fills are applied in order. -/
def DoApplyAction (c : Config) (s : HighLowTradingState) (move : Int) :
    Option HighLowTradingState :=
  let m := s.moveNumber
  if MaxGameLength c ≤ m then none
  else
    match valid_action_range c (game_phase_of_timestep c m) with
    | none => none
    | some (_, max_action) =>
      if max_action < 0 then none
      else if max_action < move then none
      else
        match RawToStructuredAction c (game_phase_of_timestep c m) move with
        | none => none
        | some structured =>
          if m < 2 then
            match structured with
            | .contractValue v =>
                if m = 0 then some { s with contract_value0 := v, moveNumber := m + 1 }
                else some { s with contract_value1 := v, moveNumber := m + 1 }
            | _ => none
          else if m = 2 then
            match structured with
            | .highLow b => some { s with is_high := b, moveNumber := m + 1 }
            | _ => none
          else if m = 3 then
            match structured with
            | .permutation roles perm =>
                some { s with player_roles := roles, permutation := perm,
                              moveNumber := m + 1 }
            | _ => none
          else if m < MaxChanceNodesInHistory c then
            match structured with
            | .customerSize sz =>
                let customer_player_id := s.permutation.getD (m - 4 + 3) 0
                some { s with
                  player_target_positions :=
                    s.player_target_positions.set customer_player_id sz,
                  moveNumber := m + 1 }
            | _ => none
          else
            match structured with
            | .quote q =>
                let player := (m - MaxChanceNodesInHistory c) % c.num_players
                let bidO : OrderEntry := ⟨q.bid_price, q.bid_size.toNat, 2 * m, player, true⟩
                let askO : OrderEntry :=
                  ⟨q.ask_price, q.ask_size.toNat, 2 * m + 1, player, false⟩
                match AddOrder s.market bidO with
                | none => none
                | some (fills1, m1) =>
                  match AddOrder m1 askO with
                  | none => none
                  | some (fills2, m2) =>
                    let fills := fills1 ++ fills2
                    some { s with
                      player_quotes := s.player_quotes ++ [(player, q)],
                      market := m2,
                      order_fills := s.order_fills ++ fills,
                      player_positions := fills.foldl applyFill s.player_positions,
                      moveNumber := m + 1 }
            | _ => none

/-- A whole play: fold `DoApplyAction` over an action list from the initial
state, propagating fatal errors. -/
def applyActionSeq (c : Config) (acts : List Int) : Option HighLowTradingState :=
  acts.foldl (fun os a => os.bind fun s => DoApplyAction c s a) (some (initialState c))

/-- Settlement value, from `high_low_trading.cc`
(`HighLowTradingState::GetContractValue`): `max` of the two drawn values if
the settlement is high, else `min`; fatal (`none`) before move 3. -/
def GetContractValue (s : HighLowTradingState) : Option Int :=
  if 3 ≤ s.moveNumber then
    some (if s.is_high then max s.contract_value1 s.contract_value0
          else min s.contract_value1 s.contract_value0)
  else none

/-- Terminal returns, from `high_low_trading.cc`
(`HighLowTradingState::Returns`): for each player, cash plus contracts
times the settlement, minus `|target - contracts| * max_contract_value`
when the target is nonzero.  The C++ computes in `double` over small
integer values, on which the arithmetic is exact. -/
def Returns (c : Config) (s : HighLowTradingState) : Option (List Int) :=
  (GetContractValue s).map fun contract_value =>
    (List.range c.num_players).map fun j =>
      let pos := s.player_positions.getD j default
      let player_return := pos.cash_balance + pos.num_contracts * contract_value
      let target := s.player_target_positions.getD j 0
      if target ≠ 0 then
        let position_diff := target - pos.num_contracts
        player_return -
          (if 0 < position_diff then position_diff else -position_diff) *
            (c.max_contract_value : Int)
      else player_return

/-- Sum of all players' contract counts. -/
def sumContracts (ps : List PlayerPosition) : Int :=
  (ps.map (·.num_contracts)).sum

/-- Sum of all players' cash balances. -/
def sumCash (ps : List PlayerPosition) : Int :=
  (ps.map (·.cash_balance)).sum

/-- The tids of all orders resting in the market, both sides. -/
def marketTids (m : Market) : List Nat :=
  (m.buy_orders ++ m.sell_orders).map (·.tid)

/-! ## Properties of the permutation codec -/

theorem factorial_pos (n : Nat) : 0 < factorial n := by
  induction n with
  | zero => exact Nat.one_pos
  | succ n ih => exact Nat.mul_pos ih n.succ_pos

theorem indexOf_getElem_self {l : List Nat} (h : l.Nodup) {i : Nat} (hi : i < l.length) :
    l.indexOf l[i] = i := by
  have hmem : l[i] ∈ l := List.getElem_mem hi
  have hlt : l.indexOf l[i] < l.length := List.indexOf_lt_length.2 hmem
  have hidx : l[l.indexOf l[i]] = l[i] := List.getElem_indexOf hlt
  exact h.getElem_inj_iff.mp hidx

theorem cons_eraseIdx_perm {l : List Nat} {i : Nat} (hi : i < l.length) :
    (l[i] :: l.eraseIdx i).Perm l := by
  have h1 : l.Perm (l[i] :: l.erase l[i]) :=
    List.perm_cons_erase (List.getElem_mem hi)
  have h2 : (l.erase l[i]).Perm (l.eraseIdx i) := List.erase_getElem hi
  exact ((h2.cons _).symm).trans h1.symm

theorem pickSeq_perm :
    ∀ (n : Nat) (pool : List Nat) (x : Nat), pool.length = n → x < factorial n →
      (pickSeq (lehmerDigits x n) pool).Perm pool := by
  intro n
  induction n with
  | zero =>
    intro pool x hlen _
    rw [List.length_eq_zero] at hlen
    subst hlen
    simp [lehmerDigits, pickSeq]
  | succ n ih =>
    intro pool x hlen hx
    have hd : x / factorial n < n + 1 := by
      rw [Nat.div_lt_iff_lt_mul (factorial_pos n)]
      calc x < factorial (n + 1) := hx
        _ = (n + 1) * factorial n := by rw [factorial, Nat.mul_comm]
    have hdlen : x / factorial n < pool.length := by rw [hlen]; exact hd
    have hgd : pool.getD (x / factorial n) 0 = pool[x / factorial n] :=
      List.getD_eq_getElem pool 0 hdlen
    have hlen' : (pool.eraseIdx (x / factorial n)).length = n := by
      have := List.length_eraseIdx_add_one hdlen
      omega
    have hmod : x % factorial n < factorial n := Nat.mod_lt _ (factorial_pos n)
    have ihrec := ih (pool.eraseIdx (x / factorial n)) (x % factorial n) hlen' hmod
    show (pool.getD (x / factorial n) 0 ::
        pickSeq (lehmerDigits (x % factorial n) n) (pool.eraseIdx (x / factorial n))).Perm pool
    rw [hgd]
    exact (ihrec.cons _).trans (cons_eraseIdx_perm hdlen)

theorem rankAux_pickSeq :
    ∀ (n : Nat) (pool : List Nat) (x : Nat), pool.length = n → pool.Nodup →
      x < factorial n →
      rankAux (pickSeq (lehmerDigits x n) pool) pool = x := by
  intro n
  induction n with
  | zero =>
    intro pool x _ _ hx
    have hx0 : x = 0 := by
      have : x < 1 := by simpa [factorial] using hx
      omega
    subst hx0
    simp [lehmerDigits, pickSeq, rankAux]
  | succ n ih =>
    intro pool x hlen hnd hx
    have hd : x / factorial n < n + 1 := by
      rw [Nat.div_lt_iff_lt_mul (factorial_pos n)]
      calc x < factorial (n + 1) := hx
        _ = (n + 1) * factorial n := by rw [factorial, Nat.mul_comm]
    have hdlen : x / factorial n < pool.length := by rw [hlen]; exact hd
    have hgd : pool.getD (x / factorial n) 0 = pool[x / factorial n] :=
      List.getD_eq_getElem pool 0 hdlen
    have hidx : pool.indexOf pool[x / factorial n] = x / factorial n :=
      indexOf_getElem_self hnd hdlen
    have hlen' : (pool.eraseIdx (x / factorial n)).length = n := by
      have := List.length_eraseIdx_add_one hdlen
      omega
    have hnd' : (pool.eraseIdx (x / factorial n)).Nodup := hnd.eraseIdx _
    have hmod : x % factorial n < factorial n := Nat.mod_lt _ (factorial_pos n)
    have ihrec := ih (pool.eraseIdx (x / factorial n)) (x % factorial n) hlen' hnd' hmod
    show rankAux (pool.getD (x / factorial n) 0 ::
        pickSeq (lehmerDigits (x % factorial n) n) (pool.eraseIdx (x / factorial n))) pool = x
    rw [hgd, rankAux, hidx, hlen, ihrec]
    simp only [Nat.add_sub_cancel]
    rw [Nat.mul_comm]
    exact Nat.div_add_mod x (factorial n)

theorem rankAux_lt :
    ∀ (p pool : List Nat), p.Perm pool → rankAux p pool < factorial pool.length := by
  intro p
  induction p with
  | nil =>
    intro pool hperm
    have : pool = [] := (hperm.nil_eq).symm
    subst this
    simpa [rankAux] using factorial_pos 0
  | cons h t ih =>
    intro pool hperm
    have hmem : h ∈ pool := hperm.mem_iff.mp (List.mem_cons_self h t)
    have hlt : pool.indexOf h < pool.length := List.indexOf_lt_length.2 hmem
    have hperm' : t.Perm (pool.eraseIdx (pool.indexOf h)) := by
      have h1 : pool.Perm (h :: pool.erase h) := List.perm_cons_erase hmem
      have h2 : (pool.erase h).Perm (pool.eraseIdx (pool.indexOf h)) := by
        have := List.erase_getElem hlt
        simpa only [List.getElem_indexOf hlt] using this
      exact ((hperm.trans h1).cons_inv).trans h2
    have hlen1 : (pool.eraseIdx (pool.indexOf h)).length + 1 = pool.length :=
      List.length_eraseIdx_add_one hlt
    have ihrec := ih _ hperm'
    rw [rankAux]
    have hfl : factorial pool.length = factorial (pool.length - 1) * pool.length := by
      cases pool with
      | nil => simp at hlt
      | cons a l => rw [List.length_cons, Nat.add_sub_cancel, factorial]
    have hr : rankAux t (pool.eraseIdx (pool.indexOf h)) < factorial (pool.length - 1) := by
      have heq : (pool.eraseIdx (pool.indexOf h)).length = pool.length - 1 := by omega
      rw [← heq]
      exact ihrec
    calc pool.indexOf h * factorial (pool.length - 1) +
          rankAux t (pool.eraseIdx (pool.indexOf h))
        < (pool.indexOf h + 1) * factorial (pool.length - 1) := by
          have := factorial_pos (pool.length - 1)
          nlinarith
      _ ≤ pool.length * factorial (pool.length - 1) :=
          Nat.mul_le_mul_right _ hlt
      _ = factorial pool.length := by rw [hfl, Nat.mul_comm]

theorem pickSeq_rankAux :
    ∀ (p pool : List Nat), p.Perm pool → pool.Nodup →
      pickSeq (lehmerDigits (rankAux p pool) pool.length) pool = p := by
  intro p
  induction p with
  | nil =>
    intro pool hperm _
    have : pool = [] := (hperm.nil_eq).symm
    subst this
    simp [rankAux, lehmerDigits, pickSeq]
  | cons h t ih =>
    intro pool hperm hnd
    have hmem : h ∈ pool := hperm.mem_iff.mp (List.mem_cons_self h t)
    have hlt : pool.indexOf h < pool.length := List.indexOf_lt_length.2 hmem
    have hget : pool[pool.indexOf h] = h := List.getElem_indexOf hlt
    have hperm' : t.Perm (pool.eraseIdx (pool.indexOf h)) := by
      have h1 : pool.Perm (h :: pool.erase h) := List.perm_cons_erase hmem
      have h2 : (pool.erase h).Perm (pool.eraseIdx (pool.indexOf h)) := by
        have := List.erase_getElem hlt
        simpa only [List.getElem_indexOf hlt] using this
      exact ((hperm.trans h1).cons_inv).trans h2
    have hlen1 : (pool.eraseIdx (pool.indexOf h)).length + 1 = pool.length :=
      List.length_eraseIdx_add_one hlt
    have hrlt : rankAux t (pool.eraseIdx (pool.indexOf h)) <
        factorial (pool.eraseIdx (pool.indexOf h)).length := rankAux_lt _ _ hperm'
    obtain ⟨n, hn⟩ : ∃ n, pool.length = n + 1 := ⟨pool.length - 1, by omega⟩
    have hlen' : (pool.eraseIdx (pool.indexOf h)).length = n := by omega
    rw [hlen'] at hrlt
    have hr : rankAux (h :: t) pool =
        pool.indexOf h * factorial n + rankAux t (pool.eraseIdx (pool.indexOf h)) := by
      rw [rankAux, hn]
      simp only [Nat.add_sub_cancel]
    have hdiv : (pool.indexOf h * factorial n +
        rankAux t (pool.eraseIdx (pool.indexOf h))) / factorial n = pool.indexOf h := by
      rw [Nat.add_comm, Nat.add_mul_div_right _ _ (factorial_pos n),
        Nat.div_eq_of_lt hrlt, Nat.zero_add]
    have hmodr : (pool.indexOf h * factorial n +
        rankAux t (pool.eraseIdx (pool.indexOf h))) % factorial n =
        rankAux t (pool.eraseIdx (pool.indexOf h)) := by
      rw [Nat.add_comm, Nat.add_mul_mod_self_right, Nat.mod_eq_of_lt hrlt]
    rw [hr, hn, lehmerDigits, hdiv, hmodr, pickSeq]
    have hgd : pool.getD (pool.indexOf h) 0 = h := by
      rw [List.getD_eq_getElem pool 0 hlt, hget]
    rw [hgd]
    have ihrec := ih (pool.eraseIdx (pool.indexOf h)) hperm' (hnd.eraseIdx _)
    rw [hlen'] at ihrec
    rw [ihrec]

theorem nth_permutation_perm {x n : Nat} (hx : x < factorial n) :
    (nth_permutation x n).Perm (List.range n) :=
  pickSeq_perm n (List.range n) x (List.length_range n) hx

theorem permutation_rank_nth_permutation {x n : Nat} (hx : x < factorial n) :
    permutation_rank (nth_permutation x n) = x := by
  have hlen : (nth_permutation x n).length = n :=
    (nth_permutation_perm hx).length_eq.trans (List.length_range n)
  rw [permutation_rank, hlen]
  exact rankAux_pickSeq n (List.range n) x (List.length_range n) (List.nodup_range n) hx

theorem permutation_rank_lt {p : List Nat} {n : Nat} (hp : p.Perm (List.range n)) :
    permutation_rank p < factorial n := by
  have hlen : p.length = n := hp.length_eq.trans (List.length_range n)
  have h := rankAux_lt p (List.range p.length) (by rw [hlen]; exact hp)
  rw [List.length_range, hlen] at h
  show rankAux p (List.range p.length) < factorial n
  rw [hlen]
  exact h

theorem nth_permutation_permutation_rank {p : List Nat} {n : Nat}
    (hp : p.Perm (List.range n)) : nth_permutation (permutation_rank p) n = p := by
  have hlen : p.length = n := hp.length_eq.trans (List.length_range n)
  have h := pickSeq_rankAux p (List.range n) hp (List.nodup_range n)
  rw [List.length_range] at h
  show pickSeq (lehmerDigits (rankAux p (List.range p.length)) n) (List.range n) = p
  rw [hlen]
  exact h

/-! ## Properties of the action codec -/

theorem roundtrip_value_raw (c : Config) (k : Int) (h0 : 0 ≤ k)
    (hk : k ≤ (c.max_contract_value : Int) - 1) :
    RawToStructuredAction c .kChanceValue k = some (.contractValue (k + 1)) ∧
    StructuredToRawAction c .kChanceValue (.contractValue (k + 1)) = some k := by
  constructor
  · simp only [RawToStructuredAction, valid_action_range]
    rw [if_neg (by omega)]
  · simp only [StructuredToRawAction]
    congr 1
    omega

theorem roundtrip_highlow_raw (c : Config) (k : Int) (h0 : 0 ≤ k) (hk : k ≤ 1) :
    RawToStructuredAction c .kChanceHighLow k = some (.highLow (k == 1)) ∧
    StructuredToRawAction c .kChanceHighLow (.highLow (k == 1)) = some k := by
  have hcase : k = 0 ∨ k = 1 := by omega
  rcases hcase with h | h <;> subst h <;>
    refine ⟨by norm_num [RawToStructuredAction, valid_action_range], ?_⟩ <;>
    norm_num [StructuredToRawAction]

theorem roundtrip_perm_raw (c : Config) (k : Int) (h0 : 0 ≤ k)
    (hk : k ≤ (factorial c.num_players : Int) - 1) :
    RawToStructuredAction c .kChancePermutation k =
      some (.permutation (rolesOfPerm (nth_permutation k.toNat c.num_players))
        (nth_permutation k.toNat c.num_players)) ∧
    StructuredToRawAction c .kChancePermutation
      (.permutation (rolesOfPerm (nth_permutation k.toNat c.num_players))
        (nth_permutation k.toNat c.num_players)) = some k := by
  have hklt : k.toNat < factorial c.num_players := by
    have := factorial_pos c.num_players
    omega
  constructor
  · simp only [RawToStructuredAction, valid_action_range]
    rw [if_neg (by omega), if_neg (by omega)]
  · simp only [StructuredToRawAction]
    rw [permutation_rank_nth_permutation hklt]
    congr 1
    omega

theorem roundtrip_customer_raw (c : Config) (k : Int) (h0 : 0 ≤ k)
    (hk : k ≤ 2 * (c.customer_max_size : Int)) :
    ∃ sz : Int, RawToStructuredAction c .kCustomerSize k = some (.customerSize sz) ∧
      StructuredToRawAction c .kCustomerSize (.customerSize sz) = some k := by
  refine ⟨if 0 ≤ k - (c.customer_max_size : Int) then k - c.customer_max_size + 1
    else k - c.customer_max_size, ?_, ?_⟩
  · simp only [RawToStructuredAction, valid_action_range]
    rw [if_neg (by omega), if_neg (by omega)]
  · simp only [StructuredToRawAction]
    congr 1
    by_cases hge : 0 ≤ k - (c.customer_max_size : Int)
    · rw [if_pos hge, if_pos (by omega)]
      omega
    · rw [if_neg hge, if_neg (by omega)]
      omega

theorem trading_digits_recompose (kn T M : Nat) :
    kn % ((T + 1) * M * M) % (M * M) % M +
      (kn % ((T + 1) * M * M) % (M * M) / M) * M +
      (kn % ((T + 1) * M * M) / (M * M)) * (M * M) +
      (kn / ((T + 1) * M * M)) * ((T + 1) * M * M) = kn := by
  have e1 : kn % ((T + 1) * M * M) % (M * M) % M +
      (kn % ((T + 1) * M * M) % (M * M) / M) * M =
      kn % ((T + 1) * M * M) % (M * M) := Nat.mod_add_div' _ _
  have e2 : kn % ((T + 1) * M * M) % (M * M) +
      (kn % ((T + 1) * M * M) / (M * M)) * (M * M) = kn % ((T + 1) * M * M) :=
    Nat.mod_add_div' _ _
  have e3 : kn % ((T + 1) * M * M) + (kn / ((T + 1) * M * M)) * ((T + 1) * M * M) = kn :=
    Nat.mod_add_div' _ _
  calc kn % ((T + 1) * M * M) % (M * M) % M +
        (kn % ((T + 1) * M * M) % (M * M) / M) * M +
        (kn % ((T + 1) * M * M) / (M * M)) * (M * M) +
        (kn / ((T + 1) * M * M)) * ((T + 1) * M * M)
      = kn % ((T + 1) * M * M) % (M * M) +
        (kn % ((T + 1) * M * M) / (M * M)) * (M * M) +
        (kn / ((T + 1) * M * M)) * ((T + 1) * M * M) := by rw [e1]
    _ = kn % ((T + 1) * M * M) + (kn / ((T + 1) * M * M)) * ((T + 1) * M * M) := by rw [e2]
    _ = kn := e3

theorem roundtrip_trading_raw (c : Config) (k : Int) (h0 : 0 ≤ k)
    (hk : k ≤ ((c.max_contracts_per_trade + 1) * (c.max_contracts_per_trade + 1) *
      c.max_contract_value * c.max_contract_value : Int) - 1) :
    ∃ q, RawToStructuredAction c .kPlayerTrading k = some (.quote q) ∧
      StructuredToRawAction c .kPlayerTrading (.quote q) = some k := by
  refine ⟨⟨((k.toNat / ((c.max_contracts_per_trade + 1) * c.max_contract_value *
      c.max_contract_value) : Nat) : Int),
    ((k.toNat % ((c.max_contracts_per_trade + 1) * c.max_contract_value *
      c.max_contract_value) % (c.max_contract_value * c.max_contract_value) /
      c.max_contract_value + 1 : Nat) : Int),
    ((k.toNat % ((c.max_contracts_per_trade + 1) * c.max_contract_value *
      c.max_contract_value) / (c.max_contract_value * c.max_contract_value) : Nat) : Int),
    ((k.toNat % ((c.max_contracts_per_trade + 1) * c.max_contract_value *
      c.max_contract_value) % (c.max_contract_value * c.max_contract_value) %
      c.max_contract_value + 1 : Nat) : Int)⟩, ?_, ?_⟩
  · simp only [RawToStructuredAction, valid_action_range]
    rw [if_neg (by omega)]
  · simp only [StructuredToRawAction]
    congr 1
    have hnat := trading_digits_recompose k.toNat c.max_contracts_per_trade
      c.max_contract_value
    have hcast := congrArg (Nat.cast : Nat → Int) hnat
    push_cast at hcast
    have hkn : ((k.toNat : Nat) : Int) = k := Int.toNat_of_nonneg h0
    push_cast
    push_cast at hkn
    linarith [hcast, hkn]

theorem roundtrip_perm_structured (c : Config) (p : List Nat)
    (hp : p.Perm (List.range c.num_players)) :
    StructuredToRawAction c .kChancePermutation (.permutation (rolesOfPerm p) p) =
      some (permutation_rank p) ∧
    RawToStructuredAction c .kChancePermutation (permutation_rank p) =
      some (.permutation (rolesOfPerm p) p) := by
  have hrank : permutation_rank p < factorial c.num_players := permutation_rank_lt hp
  refine ⟨rfl, ?_⟩
  simp only [RawToStructuredAction, valid_action_range]
  rw [if_neg (by omega), if_neg (by omega)]
  have htn : ((permutation_rank p : Int)).toNat = permutation_rank p := Int.toNat_natCast _
  rw [htn, nth_permutation_permutation_rank hp]

theorem roundtrip_customer_structured (c : Config) (sz : Int)
    (h1 : -(c.customer_max_size : Int) ≤ sz) (h2 : sz ≤ (c.customer_max_size : Int))
    (h3 : sz ≠ 0) :
    ∃ k, StructuredToRawAction c .kCustomerSize (.customerSize sz) = some k ∧
      RawToStructuredAction c .kCustomerSize k = some (.customerSize sz) := by
  refine ⟨(if 0 < sz then sz - 1 else sz) + (c.customer_max_size : Int), rfl, ?_⟩
  simp only [RawToStructuredAction, valid_action_range]
  by_cases hpos : 0 < sz
  · rw [if_pos hpos, if_neg (by omega), if_neg (by omega)]
    rw [if_pos (by omega)]
    congr 2
    omega
  · rw [if_neg hpos, if_neg (by omega), if_neg (by omega)]
    rw [if_neg (by omega)]
    congr 2
    omega

theorem mixed_radix_digits (A B Cs D T M : Nat) (hA : A < M) (hB : B < M) (hC : Cs ≤ T) :
    (A + B * M + Cs * (M * M) + D * ((T + 1) * M * M)) / ((T + 1) * M * M) = D ∧
    (A + B * M + Cs * (M * M) + D * ((T + 1) * M * M)) % ((T + 1) * M * M) /
      (M * M) = Cs ∧
    (A + B * M + Cs * (M * M) + D * ((T + 1) * M * M)) % ((T + 1) * M * M) %
      (M * M) / M = B ∧
    (A + B * M + Cs * (M * M) + D * ((T + 1) * M * M)) % ((T + 1) * M * M) %
      (M * M) % M = A := by
  have hM : 0 < M := lt_of_le_of_lt (Nat.zero_le A) hA
  have hpre1 : A + B * M < M * M := by nlinarith
  have hpre2 : A + B * M + Cs * (M * M) < (T + 1) * M * M := by nlinarith
  have h0c : 0 < (T + 1) * M * M := by positivity
  have d1 : (A + B * M + Cs * (M * M) + D * ((T + 1) * M * M)) / ((T + 1) * M * M) = D := by
    rw [Nat.add_mul_div_right _ _ h0c, Nat.div_eq_of_lt hpre2, Nat.zero_add]
  have m1 : (A + B * M + Cs * (M * M) + D * ((T + 1) * M * M)) % ((T + 1) * M * M) =
      A + B * M + Cs * (M * M) := by
    rw [Nat.add_mul_mod_self_right, Nat.mod_eq_of_lt hpre2]
  have hMM : 0 < M * M := by positivity
  have d2 : (A + B * M + Cs * (M * M)) / (M * M) = Cs := by
    rw [Nat.add_mul_div_right _ _ hMM, Nat.div_eq_of_lt hpre1, Nat.zero_add]
  have m2 : (A + B * M + Cs * (M * M)) % (M * M) = A + B * M := by
    rw [Nat.add_mul_mod_self_right, Nat.mod_eq_of_lt hpre1]
  have d3 : (A + B * M) / M = B := by
    rw [Nat.add_mul_div_right _ _ hM, Nat.div_eq_of_lt hA, Nat.zero_add]
  have m3 : (A + B * M) % M = A := by
    rw [Nat.add_mul_mod_self_right, Nat.mod_eq_of_lt hA]
  exact ⟨d1, by rw [m1, d2], by rw [m1, m2, d3], by rw [m1, m2, m3]⟩

theorem mixed_radix_lt (A B Cs D T M : Nat) (hA : A < M) (hB : B < M) (hC : Cs ≤ T)
    (hD : D ≤ T) :
    A + B * M + Cs * (M * M) + D * ((T + 1) * M * M) < (T + 1) * (T + 1) * M * M := by
  have hpre1 : A + B * M < M * M := by nlinarith
  have hpre2 : A + B * M + Cs * (M * M) < (T + 1) * M * M := by nlinarith
  have he : (T + 1) * (T + 1) * M * M = (T + 1) * M * M + T * ((T + 1) * M * M) := by ring
  have hDle : D * ((T + 1) * M * M) ≤ T * ((T + 1) * M * M) :=
    Nat.mul_le_mul_right _ hD
  omega

theorem roundtrip_trading_structured (c : Config) (q : PlayerQuoteAction)
    (hbs0 : 0 ≤ q.bid_size) (hbs : q.bid_size ≤ (c.max_contracts_per_trade : Int))
    (has0 : 0 ≤ q.ask_size) (has : q.ask_size ≤ (c.max_contracts_per_trade : Int))
    (hbp1 : 1 ≤ q.bid_price) (hbp : q.bid_price ≤ (c.max_contract_value : Int))
    (hap1 : 1 ≤ q.ask_price) (hap : q.ask_price ≤ (c.max_contract_value : Int)) :
    ∃ k, StructuredToRawAction c .kPlayerTrading (.quote q) = some k ∧
      RawToStructuredAction c .kPlayerTrading k = some (.quote q) := by
  obtain ⟨qbs, qbp, qas, qap⟩ := q
  simp only at hbs0 hbs has0 has hbp1 hbp hap1 hap
  refine ⟨_, rfl, ?_⟩
  have hAi : (((qap - 1).toNat : Nat) : Int) = qap - 1 := by omega
  have hBi : (((qbp - 1).toNat : Nat) : Int) = qbp - 1 := by omega
  have hCi : ((qas.toNat : Nat) : Int) = qas := by omega
  have hDi : ((qbs.toNat : Nat) : Int) = qbs := by omega
  have hA : (qap - 1).toNat < c.max_contract_value := by omega
  have hB : (qbp - 1).toNat < c.max_contract_value := by omega
  have hC : qas.toNat ≤ c.max_contracts_per_trade := by omega
  have hD : qbs.toNat ≤ c.max_contracts_per_trade := by omega
  obtain ⟨d1, d2, d3, d4⟩ := mixed_radix_digits (qap - 1).toNat (qbp - 1).toNat
    qas.toNat qbs.toNat c.max_contracts_per_trade c.max_contract_value hA hB hC
  have hbound := mixed_radix_lt (qap - 1).toNat (qbp - 1).toNat
    qas.toNat qbs.toNat c.max_contracts_per_trade c.max_contract_value hA hB hC hD
  have hkval : qap - 1 + (qbp - 1) * (c.max_contract_value : Int) +
      qas * ((c.max_contract_value : Int) * c.max_contract_value) +
      qbs * (((c.max_contracts_per_trade : Int) + 1) *
        c.max_contract_value * c.max_contract_value) =
      (((qap - 1).toNat + (qbp - 1).toNat * c.max_contract_value +
        qas.toNat * (c.max_contract_value * c.max_contract_value) +
        qbs.toNat * ((c.max_contracts_per_trade + 1) *
          c.max_contract_value * c.max_contract_value) : Nat) : Int) := by
    push_cast
    rw [hAi, hBi, hCi, hDi]
  have hcast : (((qap - 1).toNat + (qbp - 1).toNat * c.max_contract_value +
      qas.toNat * (c.max_contract_value * c.max_contract_value) +
      qbs.toNat * ((c.max_contracts_per_trade + 1) *
        c.max_contract_value * c.max_contract_value) : Nat) : Int) <
      ((c.max_contracts_per_trade : Int) + 1) * ((c.max_contracts_per_trade : Int) + 1) *
        c.max_contract_value * c.max_contract_value := by
    exact_mod_cast hbound
  have hk0 : (0 : Int) ≤ qap - 1 + (qbp - 1) * (c.max_contract_value : Int) +
      qas * ((c.max_contract_value : Int) * c.max_contract_value) +
      qbs * (((c.max_contracts_per_trade : Int) + 1) *
        c.max_contract_value * c.max_contract_value) := by
    rw [hkval]
    positivity
  have hkhi : qap - 1 + (qbp - 1) * (c.max_contract_value : Int) +
      qas * ((c.max_contract_value : Int) * c.max_contract_value) +
      qbs * (((c.max_contracts_per_trade : Int) + 1) *
        c.max_contract_value * c.max_contract_value) ≤
      ((c.max_contracts_per_trade : Int) + 1) * ((c.max_contracts_per_trade : Int) + 1) *
        c.max_contract_value * c.max_contract_value - 1 := by
    rw [hkval]
    linarith [hcast]
  simp only [StructuredToRawAction, RawToStructuredAction, valid_action_range]
  rw [if_neg (not_or.mpr ⟨not_lt.mpr hk0, not_lt.mpr (by linarith [hkhi])⟩)]
  have htn : (qap - 1 + (qbp - 1) * (c.max_contract_value : Int) +
      qas * ((c.max_contract_value : Int) * c.max_contract_value) +
      qbs * (((c.max_contracts_per_trade : Int) + 1) *
        c.max_contract_value * c.max_contract_value)).toNat =
      (qap - 1).toNat + (qbp - 1).toNat * c.max_contract_value +
        qas.toNat * (c.max_contract_value * c.max_contract_value) +
        qbs.toNat * ((c.max_contracts_per_trade + 1) *
          c.max_contract_value * c.max_contract_value) := by
    rw [hkval]
    exact Int.toNat_natCast _
  rw [htn, d1, d2, d3, d4]
  simp only [Option.some.injEq, ActionVariant.quote.injEq, PlayerQuoteAction.mk.injEq]
  refine ⟨by omega, by omega, by omega, by omega⟩

/-- C2: for every non-terminal phase and every raw action id in the
inclusive `valid_action_range` of that phase, decoding then re-encoding is
the identity; and for every structured action in the phase's legal domain
(contract value in `[1, max_contract_value]`, either boolean, any
permutation of `[0, num_players)` with its derived roles, a nonzero
customer size in `[-customer_max_size, customer_max_size]`, quote sizes in
`[0, max_contracts_per_trade]` and prices in `[1, max_contract_value]`),
encoding then decoding is the identity.  The configuration bounds are the
ones the game admits; they also keep every intermediate C++ `int` far from
overflow, so the unbounded model is faithful. -/
theorem C2_codec_bijection (c : Config)
    (hnp1 : 4 ≤ c.num_players) (hnp2 : c.num_players ≤ 10)
    (hmcv : 2 ≤ c.max_contract_value) (hmct : 1 ≤ c.max_contracts_per_trade)
    (hcms : 1 ≤ c.customer_max_size) :
    (∀ (phase : GamePhase) (lo hi k : Int), phase ≠ .kTerminal →
      valid_action_range c phase = some (lo, hi) → lo ≤ k → k ≤ hi →
      ∃ a, RawToStructuredAction c phase k = some a ∧
        StructuredToRawAction c phase a = some k) ∧
    (∀ v : Int, 1 ≤ v → v ≤ (c.max_contract_value : Int) →
      ∃ k, StructuredToRawAction c .kChanceValue (.contractValue v) = some k ∧
        RawToStructuredAction c .kChanceValue k = some (.contractValue v)) ∧
    (∀ b : Bool,
      ∃ k, StructuredToRawAction c .kChanceHighLow (.highLow b) = some k ∧
        RawToStructuredAction c .kChanceHighLow k = some (.highLow b)) ∧
    (∀ p : List Nat, p.Perm (List.range c.num_players) →
      ∃ k, StructuredToRawAction c .kChancePermutation
          (.permutation (rolesOfPerm p) p) = some k ∧
        RawToStructuredAction c .kChancePermutation k =
          some (.permutation (rolesOfPerm p) p)) ∧
    (∀ sz : Int, -(c.customer_max_size : Int) ≤ sz → sz ≤ (c.customer_max_size : Int) →
      sz ≠ 0 →
      ∃ k, StructuredToRawAction c .kCustomerSize (.customerSize sz) = some k ∧
        RawToStructuredAction c .kCustomerSize k = some (.customerSize sz)) ∧
    (∀ q : PlayerQuoteAction, 0 ≤ q.bid_size →
      q.bid_size ≤ (c.max_contracts_per_trade : Int) → 0 ≤ q.ask_size →
      q.ask_size ≤ (c.max_contracts_per_trade : Int) → 1 ≤ q.bid_price →
      q.bid_price ≤ (c.max_contract_value : Int) → 1 ≤ q.ask_price →
      q.ask_price ≤ (c.max_contract_value : Int) →
      ∃ k, StructuredToRawAction c .kPlayerTrading (.quote q) = some k ∧
        RawToStructuredAction c .kPlayerTrading k = some (.quote q)) := by
  refine ⟨?_, ?_, ?_, ?_, ?_, ?_⟩
  · intro phase lo hi k hne hr hlo hhi
    cases phase with
    | kChanceValue =>
      simp only [valid_action_range, Option.some.injEq, Prod.mk.injEq] at hr
      obtain ⟨h1, h2⟩ := hr
      subst h1 h2
      obtain ⟨hd, he⟩ := roundtrip_value_raw c k hlo hhi
      exact ⟨_, hd, he⟩
    | kChanceHighLow =>
      simp only [valid_action_range, Option.some.injEq, Prod.mk.injEq] at hr
      obtain ⟨h1, h2⟩ := hr
      subst h1 h2
      obtain ⟨hd, he⟩ := roundtrip_highlow_raw c k hlo hhi
      exact ⟨_, hd, he⟩
    | kChancePermutation =>
      simp only [valid_action_range, Option.some.injEq, Prod.mk.injEq] at hr
      obtain ⟨h1, h2⟩ := hr
      subst h1 h2
      obtain ⟨hd, he⟩ := roundtrip_perm_raw c k hlo hhi
      exact ⟨_, hd, he⟩
    | kCustomerSize =>
      simp only [valid_action_range, Option.some.injEq, Prod.mk.injEq] at hr
      obtain ⟨h1, h2⟩ := hr
      subst h1 h2
      obtain ⟨sz, hd, he⟩ := roundtrip_customer_raw c k hlo hhi
      exact ⟨_, hd, he⟩
    | kPlayerTrading =>
      simp only [valid_action_range, Option.some.injEq, Prod.mk.injEq] at hr
      obtain ⟨h1, h2⟩ := hr
      subst h1 h2
      obtain ⟨q, hd, he⟩ := roundtrip_trading_raw c k hlo hhi
      exact ⟨_, hd, he⟩
    | kTerminal => exact absurd rfl hne
  · intro v hv1 hv2
    have h := roundtrip_value_raw c (v - 1) (by omega) (by omega)
    rw [show v - 1 + 1 = v by omega] at h
    exact ⟨v - 1, h.2, h.1⟩
  · intro b
    cases b with
    | false =>
      have h := roundtrip_highlow_raw c 0 (by omega) (by omega)
      norm_num at h
      exact ⟨0, h.2, h.1⟩
    | true =>
      have h := roundtrip_highlow_raw c 1 (by omega) (by omega)
      norm_num at h
      exact ⟨1, h.2, h.1⟩
  · intro p hp
    obtain ⟨he, hd⟩ := roundtrip_perm_structured c p hp
    exact ⟨_, he, hd⟩
  · intro sz h1 h2 h3
    exact roundtrip_customer_structured c sz h1 h2 h3
  · intro q hbs0 hbs has0 has hbp1 hbp hap1 hap
    exact roundtrip_trading_structured c q hbs0 hbs has0 has hbp1 hbp hap1 hap

/-! ## Heap lemmas: every heap operation permutes the stored orders -/

theorem getD_set_ne (l : List OrderEntry) (i j : Nat) (a d : OrderEntry) (h : i ≠ j) :
    (l.set i a).getD j d = l.getD j d := by
  simp [List.getD_eq_getElem?_getD, List.getElem?_set_ne h]

theorem set_getD_self (l : List OrderEntry) (i : Nat) (d : OrderEntry)
    (hi : i < l.length) : l.set i (l.getD i d) = l := by
  induction l generalizing i with
  | nil => rfl
  | cons x xs ih =>
    cases i with
    | zero => rfl
    | succ i =>
      have hi' : i < xs.length := by simpa using hi
      simp only [List.set, List.getD_cons_succ]
      rw [ih i hi']

theorem set_cons_perm (l : List OrderEntry) (i : Nat) (a : OrderEntry)
    (hi : i < l.length) : (l.getD i default :: l.set i a).Perm (a :: l) := by
  induction l generalizing i with
  | nil => simp at hi
  | cons x xs ih =>
    cases i with
    | zero => exact List.Perm.swap _ _ _
    | succ i =>
      have hi' : i < xs.length := by simpa using hi
      have := (ih i hi').cons x
      exact (List.Perm.swap _ _ _).trans (this.trans (List.Perm.swap _ _ _))

theorem ms_set_cons (l : List OrderEntry) (i : Nat) (a : OrderEntry)
    (hi : i < l.length) :
    l.getD i default ::ₘ ((l.set i a : List OrderEntry) : Multiset OrderEntry) =
      a ::ₘ (l : Multiset OrderEntry) := by
  have := Multiset.coe_eq_coe.mpr (set_cons_perm l i a hi)
  simpa using this

theorem ms_cons_exchange {a p z : OrderEntry} {X L1 L : Multiset OrderEntry}
    (h1 : p ::ₘ X = z ::ₘ L1) (h2 : a ::ₘ L1 = p ::ₘ L) :
    a ::ₘ X = z ::ₘ L := by
  have key : p ::ₘ (a ::ₘ X) = p ::ₘ (z ::ₘ L) := by
    rw [Multiset.cons_swap p a, h1, Multiset.cons_swap a z, h2, Multiset.cons_swap z p]
  exact (Multiset.cons_inj_right p).mp key

theorem siftUpF_length (comp : OrderEntry → OrderEntry → Bool) :
    ∀ (fuel : Nat) (l : List OrderEntry) (hole top : Nat) (v : OrderEntry),
      (siftUpF comp fuel l hole top v).length = l.length := by
  intro fuel
  induction fuel with
  | zero => intro l hole top v; simp [siftUpF]
  | succ fuel ih =>
    intro l hole top v
    rw [siftUpF]
    dsimp only
    split
    · split
      · rw [ih]
        simp
      · simp
    · simp

theorem siftUpF_ms (comp : OrderEntry → OrderEntry → Bool) :
    ∀ (fuel : Nat) (l : List OrderEntry) (hole top : Nat) (v : OrderEntry),
      hole < l.length →
      l.getD hole default ::ₘ
          ((siftUpF comp fuel l hole top v : List OrderEntry) : Multiset OrderEntry) =
        v ::ₘ (l : Multiset OrderEntry) := by
  intro fuel
  induction fuel with
  | zero =>
    intro l hole top v hh
    exact ms_set_cons l hole v hh
  | succ fuel ih =>
    intro l hole top v hh
    rw [siftUpF]
    dsimp only
    split
    · rename_i htop
      split
      · rename_i hcomp
        have hpar : (hole - 1) / 2 < l.length := by omega
        have hpar_ne : (hole - 1) / 2 ≠ hole := by omega
        have hlen' : (l.set hole (l.getD ((hole - 1) / 2) default)).length = l.length := by
          simp
        have hg : (l.set hole (l.getD ((hole - 1) / 2) default)).getD ((hole - 1) / 2)
            default = l.getD ((hole - 1) / 2) default :=
          getD_set_ne l hole ((hole - 1) / 2) _ default (fun h => hpar_ne h.symm)
        have h1 := ih (l.set hole (l.getD ((hole - 1) / 2) default)) ((hole - 1) / 2)
          top v (by omega)
        rw [hg] at h1
        have h2 := ms_set_cons l hole (l.getD ((hole - 1) / 2) default) hh
        exact ms_cons_exchange h1 h2
      · exact ms_set_cons l hole v hh
    · exact ms_set_cons l hole v hh

theorem heapPush_ms (comp : OrderEntry → OrderEntry → Bool) (l : List OrderEntry)
    (x : OrderEntry) :
    ((heapPush comp l x : List OrderEntry) : Multiset OrderEntry) =
      x ::ₘ (l : Multiset OrderEntry) := by
  have hlen : l.length < (l ++ [x]).length := by simp
  have hlast : (l ++ [x]).getD (l ++ [x]).length.pred default = x := by
    have : (l ++ [x]).length = l.length + 1 := by simp
    rw [this]
    simp only [Nat.pred_succ]
    rw [List.getD_eq_getElem _ default (by simp)]
    exact List.getElem_concat_length l x l.length rfl (by simp)
  have h := siftUpF_ms comp ((l ++ [x]).length - 1) (l ++ [x]) ((l ++ [x]).length - 1) 0 x
    (by simp)
  rw [show (l ++ [x]).length - 1 = (l ++ [x]).length.pred from rfl, hlast] at h
  have h2 : ((l ++ [x] : List OrderEntry) : Multiset OrderEntry) =
      x ::ₘ (l : Multiset OrderEntry) := by
    have := Multiset.coe_eq_coe.mpr (List.perm_append_singleton x l)
    simpa using this
  rw [h2] at h
  have := (Multiset.cons_inj_right x).mp h
  rw [heapPush]
  exact this

theorem adjustLoopF_ms (comp : OrderEntry → OrderEntry → Bool) :
    ∀ (fuel : Nat) (l : List OrderEntry) (sc len : Nat) (l1 : List OrderEntry) (s1 : Nat),
      adjustLoopF comp fuel l sc len = (l1, s1) → sc < l.length → len = l.length →
      l1.length = l.length ∧ s1 < l1.length ∧
        ∀ z, l.getD sc default ::ₘ ((l1.set s1 z : List OrderEntry) : Multiset OrderEntry) =
          z ::ₘ (l : Multiset OrderEntry) := by
  intro fuel
  induction fuel with
  | zero =>
    intro l sc len l1 s1 heq hsc hlen
    rw [adjustLoopF] at heq
    obtain ⟨h1, h2⟩ := Prod.mk.injEq .. ▸ heq
    cases heq
    exact ⟨rfl, hsc, fun z => ms_set_cons l sc z hsc⟩
  | succ fuel ih =>
    intro l sc len l1 s1 heq hsc hlen
    rw [adjustLoopF] at heq
    split at heq
    · rename_i hcond
      have hsc2lt : (if comp (l.getD (2 * (sc + 1)) default)
          (l.getD (2 * (sc + 1) - 1) default) then 2 * (sc + 1) - 1 else 2 * (sc + 1)) <
          l.length := by
        split <;> omega
      have hscne : sc ≠ (if comp (l.getD (2 * (sc + 1)) default)
          (l.getD (2 * (sc + 1) - 1) default) then 2 * (sc + 1) - 1 else 2 * (sc + 1)) := by
        split <;> omega
      set sc2 := (if comp (l.getD (2 * (sc + 1)) default)
        (l.getD (2 * (sc + 1) - 1) default) then 2 * (sc + 1) - 1 else 2 * (sc + 1)) with hsc2
      have hlen' : (l.set sc (l.getD sc2 default)).length = l.length := by simp
      obtain ⟨ih1, ih2, ih3⟩ := ih (l.set sc (l.getD sc2 default)) sc2 len l1 s1 heq
        (by omega) (by omega)
      refine ⟨by omega, ih2, ?_⟩
      intro z
      have hg : (l.set sc (l.getD sc2 default)).getD sc2 default = l.getD sc2 default :=
        getD_set_ne l sc sc2 _ default hscne
      have h1 := ih3 z
      rw [hg] at h1
      have h2 := ms_set_cons l sc (l.getD sc2 default) hsc
      exact ms_cons_exchange h1 h2
    · cases heq
      exact ⟨rfl, hsc, fun z => ms_set_cons l sc z hsc⟩

theorem adjustHeap_ms (comp : OrderEntry → OrderEntry → Bool) (l : List OrderEntry)
    (v : OrderEntry) (hl : 0 < l.length) :
    l.getD 0 default ::ₘ ((adjustHeap comp l v : List OrderEntry) : Multiset OrderEntry) =
      v ::ₘ (l : Multiset OrderEntry) := by
  rw [adjustHeap]
  obtain ⟨l1, s1, heq⟩ : ∃ l1 s1, adjustLoopF comp l.length l 0 l.length = (l1, s1) :=
    ⟨_, _, rfl⟩
  obtain ⟨hlen1, hs1, hinv⟩ := adjustLoopF_ms comp l.length l 0 l.length l1 s1 heq hl rfl
  rw [heq]
  simp only
  split
  · rename_i hcondside
    obtain ⟨heven, hstop⟩ := hcondside
    have hs2lt : 2 * (s1 + 1) - 1 < (l1.set s1 (l1.getD (2 * (s1 + 1) - 1) default)).length := by
      simp only [List.length_set]
      omega
    have hs2ne : 2 * (s1 + 1) - 1 ≠ s1 := by omega
    have hg : (l1.set s1 (l1.getD (2 * (s1 + 1) - 1) default)).getD (2 * (s1 + 1) - 1)
        default = l1.getD (2 * (s1 + 1) - 1) default :=
      getD_set_ne l1 s1 (2 * (s1 + 1) - 1) _ default (fun h => hs2ne h.symm)
    have hsift := siftUpF_ms comp (2 * (s1 + 1) - 1)
      (l1.set s1 (l1.getD (2 * (s1 + 1) - 1) default)) (2 * (s1 + 1) - 1) 0 v hs2lt
    rw [hg] at hsift
    have hsd : 2 * (s1 + 1) - 1 < l1.length := by omega
    have hinv2 := hinv (l1.getD (2 * (s1 + 1) - 1) default)
    exact ms_cons_exchange hsift hinv2
  · have hsift := siftUpF_ms comp s1 l1 s1 0 v hs1
    have hinv2 := hinv (l1.getD s1 default)
    rw [set_getD_self l1 s1 default hs1] at hinv2
    exact ms_cons_exchange hsift hinv2

theorem heapPop_ms (comp : OrderEntry → OrderEntry → Bool) (l : List OrderEntry)
    (hl : l ≠ []) :
    heapTop l ::ₘ ((heapPop comp l : List OrderEntry) : Multiset OrderEntry) =
      (l : Multiset OrderEntry) := by
  rw [heapPop]
  by_cases hlen : l.length ≤ 1
  · rw [if_pos hlen]
    obtain ⟨x, hx⟩ : ∃ x, l = [x] := by
      cases l with
      | nil => exact absurd rfl hl
      | cons a t =>
        cases t with
        | nil => exact ⟨a, rfl⟩
        | cons b u => simp at hlen
    subst hx
    rfl
  · rw [if_neg hlen]
    have hdl : 0 < l.dropLast.length := by
      rw [List.length_dropLast]
      omega
    have h := adjustHeap_ms comp l.dropLast (l.getD (l.length - 1) default) hdl
    have hg0 : l.dropLast.getD 0 default = l.getD 0 default := by
      rw [List.getD_eq_getElem _ default hdl,
        List.getD_eq_getElem _ default (by omega : 0 < l.length)]
      exact List.getElem_dropLast l 0 hdl
    rw [hg0] at h
    have hsplit : (l : Multiset OrderEntry) =
        l.getD (l.length - 1) default ::ₘ (l.dropLast : Multiset OrderEntry) := by
      have hcat : l.dropLast ++ [l.getD (l.length - 1) default] = l := by
        rw [List.getD_eq_getElem _ default (by omega : l.length - 1 < l.length)]
        have := List.dropLast_append_getLast hl
        rwa [List.getLast_eq_getElem] at this
      calc (l : Multiset OrderEntry)
          = ((l.dropLast ++ [l.getD (l.length - 1) default] : List OrderEntry) :
              Multiset OrderEntry) := by rw [hcat]
        _ = l.getD (l.length - 1) default ::ₘ (l.dropLast : Multiset OrderEntry) := by
            have := Multiset.coe_eq_coe.mpr
              (List.perm_append_singleton (l.getD (l.length - 1) default) l.dropLast)
            simpa using this
    rw [hsplit]
    exact h

theorem heapPush_length (comp : OrderEntry → OrderEntry → Bool) (l : List OrderEntry)
    (x : OrderEntry) : (heapPush comp l x).length = l.length + 1 := by
  have := congrArg Multiset.card (heapPush_ms comp l x)
  simpa using this

theorem heapPop_length (comp : OrderEntry → OrderEntry → Bool) (l : List OrderEntry)
    (hl : l ≠ []) : (heapPop comp l).length + 1 = l.length := by
  have := congrArg Multiset.card (heapPop_ms comp l hl)
  simpa using this

theorem heapTop_mem (l : List OrderEntry) (hl : l ≠ []) : heapTop l ∈ l := by
  cases l with
  | nil => exact absurd rfl hl
  | cons a t => exact List.mem_cons_self a t

theorem heapPop_subset (comp : OrderEntry → OrderEntry → Bool) (l : List OrderEntry)
    (hl : l ≠ []) :
    ((heapPop comp l : List OrderEntry) : Multiset OrderEntry) ≤ (l : Multiset OrderEntry) :=
  le_of_le_of_eq (Multiset.le_cons_self _ _) (heapPop_ms comp l hl)

/-! ## Matching-engine lemmas -/

theorem matchStep_trade_spec {m : Market} {f : OrderFillEntry} {m' : Market}
    (h : matchStep m = .trade f m') :
    m.buy_orders ≠ [] ∧ m.sell_orders ≠ [] ∧
    (heapTop m.sell_orders).price ≤ (heapTop m.buy_orders).price ∧
    (heapTop m.buy_orders).tid ≠ (heapTop m.sell_orders).tid ∧
    f.size = min (heapTop m.buy_orders).size (heapTop m.sell_orders).size ∧
    f.price = (if (heapTop m.sell_orders).tid < (heapTop m.buy_orders).tid
        then heapTop m.sell_orders else heapTop m.buy_orders).price ∧
    f.customer_id = (if (heapTop m.sell_orders).tid < (heapTop m.buy_orders).tid
        then heapTop m.buy_orders else heapTop m.sell_orders).customer_id ∧
    f.quoter_id = (if (heapTop m.sell_orders).tid < (heapTop m.buy_orders).tid
        then heapTop m.sell_orders else heapTop m.buy_orders).customer_id ∧
    m'.buy_orders = (if (heapTop m.buy_orders).size - f.size > 0 then
        heapPush OrderEntryLess (heapPop OrderEntryLess m.buy_orders)
          ⟨(heapTop m.buy_orders).price, (heapTop m.buy_orders).size - f.size,
            (heapTop m.buy_orders).tid, (heapTop m.buy_orders).customer_id, true⟩
      else heapPop OrderEntryLess m.buy_orders) ∧
    m'.sell_orders = (if (heapTop m.sell_orders).size - f.size > 0 then
        heapPush OrderEntryLess (heapPop OrderEntryLess m.sell_orders)
          ⟨(heapTop m.sell_orders).price, (heapTop m.sell_orders).size - f.size,
            (heapTop m.sell_orders).tid, (heapTop m.sell_orders).customer_id, false⟩
      else heapPop OrderEntryLess m.sell_orders) := by
  rw [matchStep] at h
  split at h
  · exact absurd h (by simp)
  · rename_i hne
    have hne1 : m.buy_orders ≠ [] ∧ m.sell_orders ≠ [] := by
      constructor <;> intro hemp <;> exact hne (by simp [hemp])
    dsimp only at h
    split at h
    · exact absurd h (by simp)
    · rename_i hcross
      split at h
      · exact absurd h (by simp)
      · rename_i htid
        simp only [MatchStepResult.trade.injEq] at h
        obtain ⟨hf, hm⟩ := h
        subst hf hm
        refine ⟨hne1.1, hne1.2, by omega, htid, rfl, ?_, ?_, ?_, ?_, ?_⟩
        · by_cases hlt : (heapTop m.sell_orders).tid < (heapTop m.buy_orders).tid <;>
            simp [hlt]
        · by_cases hlt : (heapTop m.sell_orders).tid < (heapTop m.buy_orders).tid <;>
            simp [hlt]
        · by_cases hlt : (heapTop m.sell_orders).tid < (heapTop m.buy_orders).tid <;>
            simp [hlt]
        · rfl
        · rfl

theorem matchStep_stop_of_no_cross {m : Market}
    (h : m.buy_orders = [] ∨ m.sell_orders = [] ∨
      (heapTop m.buy_orders).price < (heapTop m.sell_orders).price) :
    matchStep m = .stop := by
  rw [matchStep]
  rcases h with h | h | h
  · rw [if_pos (by simp [h])]
  · rw [if_pos (by simp [h])]
  · split
    · rfl
    · rw [if_pos h]

theorem matchStep_fatal_iff (m : Market) :
    matchStep m = .fatal ↔ m.buy_orders ≠ [] ∧ m.sell_orders ≠ [] ∧
      (heapTop m.sell_orders).price ≤ (heapTop m.buy_orders).price ∧
      (heapTop m.buy_orders).tid = (heapTop m.sell_orders).tid := by
  constructor
  · intro h
    rw [matchStep] at h
    split at h
    · exact absurd h (by simp)
    · rename_i hne
      have hne1 : m.buy_orders ≠ [] ∧ m.sell_orders ≠ [] := by
        constructor <;> intro hemp <;> exact hne (by simp [hemp])
      dsimp only at h
      split at h
      · exact absurd h (by simp)
      · rename_i hcross
        split at h
        · rename_i htid
          exact ⟨hne1.1, hne1.2, by omega, htid⟩
        · exact absurd h (by simp)
  · intro ⟨h1, h2, h3, h4⟩
    rw [matchStep]
    rw [if_neg (by simp [h1, h2]), if_neg (by omega), if_pos h4]

theorem matchOrdersF_no_cross {m : Market} (fuel : Nat)
    (h : m.buy_orders = [] ∨ m.sell_orders = [] ∨
      (heapTop m.buy_orders).price < (heapTop m.sell_orders).price) :
    matchOrdersF fuel m = some ([], m) := by
  cases fuel with
  | zero => rfl
  | succ fuel => rw [matchOrdersF, matchStep_stop_of_no_cross h]

theorem MatchOrders_no_cross {m : Market}
    (h : m.buy_orders = [] ∨ m.sell_orders = [] ∨
      (heapTop m.buy_orders).price < (heapTop m.sell_orders).price) :
    MatchOrders m = some ([], m) :=
  matchOrdersF_no_cross _ h

theorem matchOrdersF_fills_origin :
    ∀ (fuel : Nat) (m : Market) (fs : List OrderFillEntry) (m' : Market),
      matchOrdersF fuel m = some (fs, m') →
      ∀ f ∈ fs, ∃ m1 m2, matchStep m1 = .trade f m2 := by
  intro fuel
  induction fuel with
  | zero =>
    intro m fs m' h f hf
    rw [matchOrdersF] at h
    simp only [Option.some.injEq, Prod.mk.injEq] at h
    obtain ⟨h1, _⟩ := h
    subst h1
    simp at hf
  | succ fuel ih =>
    intro m fs m' h f hf
    rw [matchOrdersF] at h
    split at h
    · simp only [Option.some.injEq, Prod.mk.injEq] at h
      obtain ⟨h1, _⟩ := h
      subst h1
      simp at hf
    · exact absurd h (by simp)
    · rename_i f0 m0 hstep
      split at h
      · exact absurd h (by simp)
      · rename_i fs0 m0' hrec
        simp only [Option.some.injEq, Prod.mk.injEq] at h
        obtain ⟨h1, _⟩ := h
        subst h1
        rcases List.mem_cons.mp hf with hf | hf
        · subst hf
          exact ⟨m, m0, hstep⟩
        · exact ih m0 fs0 m0' hrec f hf

theorem AddOrder_fills_origin {m : Market} {o : OrderEntry} {fs : List OrderFillEntry}
    {m' : Market} (h : AddOrder m o = some (fs, m')) :
    ∀ f ∈ fs, ∃ m1 m2, matchStep m1 = .trade f m2 := by
  rw [AddOrder] at h
  split at h
  · simp only [Option.some.injEq, Prod.mk.injEq] at h
    obtain ⟨h1, _⟩ := h
    subst h1
    simp
  · exact matchOrdersF_fills_origin _ _ fs m' h

theorem matchStep_map_le {α : Type} (g : OrderEntry → α)
    (hg : ∀ (o : OrderEntry) (sz : Nat) (b : Bool),
      g ⟨o.price, sz, o.tid, o.customer_id, b⟩ = g o)
    {m : Market} {f : OrderFillEntry} {m' : Market} (h : matchStep m = .trade f m') :
    (m'.buy_orders : Multiset OrderEntry).map g +
        (m'.sell_orders : Multiset OrderEntry).map g ≤
      (m.buy_orders : Multiset OrderEntry).map g +
        (m.sell_orders : Multiset OrderEntry).map g := by
  obtain ⟨hb, hs, _, _, _, _, _, _, hbuys, hsells⟩ := matchStep_trade_spec h
  have hbuy_le : (m'.buy_orders : Multiset OrderEntry).map g ≤
      (m.buy_orders : Multiset OrderEntry).map g := by
    rw [hbuys]
    split
    · rw [heapPush_ms]
      rw [Multiset.map_cons]
      rw [hg (heapTop m.buy_orders) _ true]
      have hpop := heapPop_ms OrderEntryLess m.buy_orders hb
      have := congrArg (Multiset.map g) hpop
      rw [Multiset.map_cons] at this
      rw [this]
    · exact Multiset.map_le_map (heapPop_subset OrderEntryLess m.buy_orders hb)
  have hsell_le : (m'.sell_orders : Multiset OrderEntry).map g ≤
      (m.sell_orders : Multiset OrderEntry).map g := by
    rw [hsells]
    split
    · rw [heapPush_ms]
      rw [Multiset.map_cons]
      rw [hg (heapTop m.sell_orders) _ false]
      have hpop := heapPop_ms OrderEntryLess m.sell_orders hs
      have := congrArg (Multiset.map g) hpop
      rw [Multiset.map_cons] at this
      rw [this]
    · exact Multiset.map_le_map (heapPop_subset OrderEntryLess m.sell_orders hs)
  exact add_le_add hbuy_le hsell_le

theorem matchStep_fill_ids {m : Market} {f : OrderFillEntry} {m' : Market}
    (h : matchStep m = .trade f m') :
    f.customer_id ∈ (m.buy_orders : Multiset OrderEntry).map (·.customer_id) +
        (m.sell_orders : Multiset OrderEntry).map (·.customer_id) ∧
    f.quoter_id ∈ (m.buy_orders : Multiset OrderEntry).map (·.customer_id) +
        (m.sell_orders : Multiset OrderEntry).map (·.customer_id) := by
  obtain ⟨hb, hs, _, _, _, _, hcust, hquot, _, _⟩ := matchStep_trade_spec h
  have hbm : (heapTop m.buy_orders).customer_id ∈
      (m.buy_orders : Multiset OrderEntry).map (·.customer_id) +
        (m.sell_orders : Multiset OrderEntry).map (·.customer_id) := by
    rw [Multiset.mem_add]
    left
    exact Multiset.mem_map_of_mem _ (by simpa using heapTop_mem m.buy_orders hb)
  have hsm : (heapTop m.sell_orders).customer_id ∈
      (m.buy_orders : Multiset OrderEntry).map (·.customer_id) +
        (m.sell_orders : Multiset OrderEntry).map (·.customer_id) := by
    rw [Multiset.mem_add]
    right
    exact Multiset.mem_map_of_mem _ (by simpa using heapTop_mem m.sell_orders hs)
  constructor
  · rw [hcust]
    split <;> assumption
  · rw [hquot]
    split <;> assumption

theorem matchOrdersF_map_le {α : Type} (g : OrderEntry → α)
    (hg : ∀ (o : OrderEntry) (sz : Nat) (b : Bool),
      g ⟨o.price, sz, o.tid, o.customer_id, b⟩ = g o) :
    ∀ (fuel : Nat) (m : Market) (fs : List OrderFillEntry) (m' : Market),
      matchOrdersF fuel m = some (fs, m') →
      (m'.buy_orders : Multiset OrderEntry).map g +
          (m'.sell_orders : Multiset OrderEntry).map g ≤
        (m.buy_orders : Multiset OrderEntry).map g +
          (m.sell_orders : Multiset OrderEntry).map g := by
  intro fuel
  induction fuel with
  | zero =>
    intro m fs m' h
    rw [matchOrdersF] at h
    simp only [Option.some.injEq, Prod.mk.injEq] at h
    rw [← h.2]
  | succ fuel ih =>
    intro m fs m' h
    rw [matchOrdersF] at h
    split at h
    · simp only [Option.some.injEq, Prod.mk.injEq] at h
      rw [← h.2]
    · exact absurd h (by simp)
    · rename_i f0 m0 hstep
      split at h
      · exact absurd h (by simp)
      · rename_i fs0 m0' hrec
        simp only [Option.some.injEq, Prod.mk.injEq] at h
        obtain ⟨_, h2⟩ := h
        subst h2
        exact le_trans (ih m0 fs0 _ hrec) (matchStep_map_le g hg hstep)

theorem matchOrdersF_fill_ids :
    ∀ (fuel : Nat) (m : Market) (fs : List OrderFillEntry) (m' : Market),
      matchOrdersF fuel m = some (fs, m') →
      ∀ f ∈ fs,
        f.customer_id ∈ (m.buy_orders : Multiset OrderEntry).map (·.customer_id) +
            (m.sell_orders : Multiset OrderEntry).map (·.customer_id) ∧
        f.quoter_id ∈ (m.buy_orders : Multiset OrderEntry).map (·.customer_id) +
            (m.sell_orders : Multiset OrderEntry).map (·.customer_id) := by
  intro fuel
  induction fuel with
  | zero =>
    intro m fs m' h f hf
    rw [matchOrdersF] at h
    simp only [Option.some.injEq, Prod.mk.injEq] at h
    obtain ⟨h1, _⟩ := h
    subst h1
    simp at hf
  | succ fuel ih =>
    intro m fs m' h f hf
    rw [matchOrdersF] at h
    split at h
    · simp only [Option.some.injEq, Prod.mk.injEq] at h
      obtain ⟨h1, _⟩ := h
      subst h1
      simp at hf
    · exact absurd h (by simp)
    · rename_i f0 m0 hstep
      split at h
      · exact absurd h (by simp)
      · rename_i fs0 m0' hrec
        simp only [Option.some.injEq, Prod.mk.injEq] at h
        obtain ⟨h1, _⟩ := h
        subst h1
        rcases List.mem_cons.mp hf with hf | hf
        · subst hf
          exact matchStep_fill_ids hstep
        · have hmem := ih m0 fs0 m0' hrec f hf
          have hle := matchStep_map_le (·.customer_id) (fun o sz b => rfl) hstep
          exact ⟨Multiset.mem_of_le hle hmem.1, Multiset.mem_of_le hle hmem.2⟩

theorem matchOrdersF_no_fatal :
    ∀ (fuel : Nat) (m : Market),
      ((m.buy_orders : Multiset OrderEntry).map (·.tid) +
        (m.sell_orders : Multiset OrderEntry).map (·.tid)).Nodup →
      matchOrdersF fuel m ≠ none := by
  intro fuel
  induction fuel with
  | zero =>
    intro m hnd
    rw [matchOrdersF]
    simp
  | succ fuel ih =>
    intro m hnd
    rw [matchOrdersF]
    cases hstep : matchStep m with
    | stop => simp
    | fatal =>
      exfalso
      obtain ⟨hb, hs, hcross, htid⟩ := (matchStep_fatal_iff m).mp hstep
      have hbmem : (heapTop m.buy_orders).tid ∈
          (m.buy_orders : Multiset OrderEntry).map (·.tid) :=
        Multiset.mem_map_of_mem _ (by simpa using heapTop_mem m.buy_orders hb)
      have hsmem : (heapTop m.sell_orders).tid ∈
          (m.sell_orders : Multiset OrderEntry).map (·.tid) :=
        Multiset.mem_map_of_mem _ (by simpa using heapTop_mem m.sell_orders hs)
      have hdisj := Multiset.nodup_add.mp hnd
      exact (Multiset.disjoint_left.mp hdisj.2.2) hbmem (htid ▸ hsmem)
    | trade f0 m0 =>
      have hle := matchStep_map_le (·.tid) (fun o sz b => rfl) hstep
      have hnd0 := Multiset.nodup_of_le hle hnd
      have := ih m0 hnd0
      cases hrec : matchOrdersF fuel m0 with
      | none => exact absurd hrec this
      | some r =>
        simp [hrec]

theorem AddOrder_map_le {α : Type} (g : OrderEntry → α)
    (hg : ∀ (o : OrderEntry) (sz : Nat) (b : Bool),
      g ⟨o.price, sz, o.tid, o.customer_id, b⟩ = g o)
    {m : Market} {o : OrderEntry} {fs : List OrderFillEntry} {m' : Market}
    (h : AddOrder m o = some (fs, m')) :
    (m'.buy_orders : Multiset OrderEntry).map g +
        (m'.sell_orders : Multiset OrderEntry).map g ≤
      g o ::ₘ ((m.buy_orders : Multiset OrderEntry).map g +
        (m.sell_orders : Multiset OrderEntry).map g) := by
  rw [AddOrder] at h
  split at h
  · simp only [Option.some.injEq, Prod.mk.injEq] at h
    rw [← h.2]
    exact Multiset.le_cons_self _ _
  · split at h
    · rename_i hbid
      have hle := matchOrdersF_map_le g hg _ _ fs m' h
      refine le_trans hle ?_
      simp only [heapPush_ms, Multiset.map_cons]
      rw [Multiset.cons_add]
    · rename_i hbid
      have hle := matchOrdersF_map_le g hg _ _ fs m' h
      refine le_trans hle ?_
      simp only [heapPush_ms, Multiset.map_cons]
      rw [Multiset.add_cons]

theorem AddOrder_fill_ids {m : Market} {o : OrderEntry} {fs : List OrderFillEntry}
    {m' : Market} (h : AddOrder m o = some (fs, m')) :
    ∀ f ∈ fs,
      f.customer_id ∈ o.customer_id ::ₘ
          ((m.buy_orders : Multiset OrderEntry).map (·.customer_id) +
            (m.sell_orders : Multiset OrderEntry).map (·.customer_id)) ∧
      f.quoter_id ∈ o.customer_id ::ₘ
          ((m.buy_orders : Multiset OrderEntry).map (·.customer_id) +
            (m.sell_orders : Multiset OrderEntry).map (·.customer_id)) := by
  intro f hf
  rw [AddOrder] at h
  split at h
  · simp only [Option.some.injEq, Prod.mk.injEq] at h
    obtain ⟨h1, _⟩ := h
    subst h1
    simp at hf
  · split at h
    · have hmem := matchOrdersF_fill_ids _ _ fs m' h f hf
      simp only [heapPush_ms, Multiset.map_cons, Multiset.cons_add] at hmem
      exact hmem
    · have hmem := matchOrdersF_fill_ids _ _ fs m' h f hf
      simp only [heapPush_ms, Multiset.map_cons, Multiset.add_cons] at hmem
      exact hmem

theorem AddOrder_no_fatal {m : Market} {o : OrderEntry}
    (hnd : ((m.buy_orders : Multiset OrderEntry).map (·.tid) +
      (m.sell_orders : Multiset OrderEntry).map (·.tid)).Nodup)
    (hfresh : o.tid ∉ (m.buy_orders : Multiset OrderEntry).map (·.tid) +
      (m.sell_orders : Multiset OrderEntry).map (·.tid)) :
    AddOrder m o ≠ none := by
  rw [AddOrder]
  split
  · simp
  · split
    · apply matchOrdersF_no_fatal
      simp only [heapPush_ms, Multiset.map_cons, Multiset.cons_add]
      exact Multiset.nodup_cons.mpr ⟨hfresh, hnd⟩
    · apply matchOrdersF_no_fatal
      simp only [heapPush_ms, Multiset.map_cons, Multiset.add_cons]
      exact Multiset.nodup_cons.mpr ⟨hfresh, hnd⟩

/-! ## Position bookkeeping lemmas -/

theorem updatePosition_spec (ps : List PlayerPosition) (i : Nat) (dc dm : Int)
    (hi : i < ps.length) :
    sumContracts (updatePosition ps i dc dm) = sumContracts ps + dc ∧
    sumCash (updatePosition ps i dc dm) = sumCash ps + dm ∧
    (updatePosition ps i dc dm).length = ps.length := by
  induction ps generalizing i with
  | nil => simp at hi
  | cons p t ih =>
    cases i with
    | zero =>
      refine ⟨?_, ?_, by simp [updatePosition]⟩ <;>
        simp [updatePosition, sumContracts, sumCash] <;> ring
    | succ i =>
      have hi' : i < t.length := by simpa using hi
      obtain ⟨ih1, ih2, ih3⟩ := ih i hi'
      have hset : updatePosition (p :: t) (i + 1) dc dm = p :: updatePosition t i dc dm := by
        simp [updatePosition]
      rw [hset]
      refine ⟨?_, ?_, by simpa using ih3⟩
      · simp only [sumContracts, List.map_cons, List.sum_cons] at ih1 ⊢
        omega
      · simp only [sumCash, List.map_cons, List.sum_cons] at ih2 ⊢
        omega

theorem applyFill_spec (ps : List PlayerPosition) (f : OrderFillEntry)
    (hc : f.customer_id < ps.length) (hq : f.quoter_id < ps.length) :
    sumContracts (applyFill ps f) = sumContracts ps ∧
    sumCash (applyFill ps f) = sumCash ps ∧
    (applyFill ps f).length = ps.length := by
  rw [applyFill]
  split
  · have h1 := updatePosition_spec ps f.customer_id (f.size : Int)
      (-(f.price * (f.size : Int))) hc
    have h2 := updatePosition_spec
      (updatePosition ps f.customer_id (f.size : Int) (-(f.price * (f.size : Int))))
      f.quoter_id (-(f.size : Int)) (f.price * (f.size : Int)) (by rw [h1.2.2]; exact hq)
    refine ⟨by rw [h2.1, h1.1]; ring, by rw [h2.2.1, h1.2.1]; ring, by rw [h2.2.2, h1.2.2]⟩
  · have h1 := updatePosition_spec ps f.customer_id (-(f.size : Int))
      (f.price * (f.size : Int)) hc
    have h2 := updatePosition_spec
      (updatePosition ps f.customer_id (-(f.size : Int)) (f.price * (f.size : Int)))
      f.quoter_id (f.size : Int) (-(f.price * (f.size : Int))) (by rw [h1.2.2]; exact hq)
    refine ⟨by rw [h2.1, h1.1]; ring, by rw [h2.2.1, h1.2.1]; ring, by rw [h2.2.2, h1.2.2]⟩

theorem foldl_applyFill_spec (fills : List OrderFillEntry) (ps : List PlayerPosition)
    (hids : ∀ f ∈ fills, f.customer_id < ps.length ∧ f.quoter_id < ps.length) :
    sumContracts (fills.foldl applyFill ps) = sumContracts ps ∧
    sumCash (fills.foldl applyFill ps) = sumCash ps ∧
    (fills.foldl applyFill ps).length = ps.length := by
  induction fills generalizing ps with
  | nil => exact ⟨rfl, rfl, rfl⟩
  | cons f fs ih =>
    obtain ⟨hc, hq⟩ := hids f (List.mem_cons_self f fs)
    obtain ⟨h1, h2, h3⟩ := applyFill_spec ps f hc hq
    have hids' : ∀ g ∈ fs, g.customer_id < (applyFill ps f).length ∧
        g.quoter_id < (applyFill ps f).length := by
      intro g hg
      rw [h3]
      exact hids g (List.mem_cons_of_mem f hg)
    obtain ⟨ih1, ih2, ih3⟩ := ih (applyFill ps f) hids'
    exact ⟨by rw [List.foldl_cons, ih1, h1], by rw [List.foldl_cons, ih2, h2],
      by rw [List.foldl_cons, ih3, h3]⟩

/-! ## State-machine structural lemmas -/

theorem DoApplyAction_cases (c : Config) (s : HighLowTradingState) (a : Int)
    (s' : HighLowTradingState) (h : DoApplyAction c s a = some s') :
    s'.moveNumber = s.moveNumber + 1 ∧
    ((s'.player_positions = s.player_positions ∧ s'.market = s.market) ∨
      (∃ (q : PlayerQuoteAction) (fills1 fills2 : List OrderFillEntry) (m1 m2 : Market),
        AddOrder s.market ⟨q.bid_price, q.bid_size.toNat, 2 * s.moveNumber,
            (s.moveNumber - MaxChanceNodesInHistory c) % c.num_players, true⟩ =
          some (fills1, m1) ∧
        AddOrder m1 ⟨q.ask_price, q.ask_size.toNat, 2 * s.moveNumber + 1,
            (s.moveNumber - MaxChanceNodesInHistory c) % c.num_players, false⟩ =
          some (fills2, m2) ∧
        s'.market = m2 ∧
        s'.player_positions = (fills1 ++ fills2).foldl applyFill s.player_positions)) := by
  rw [DoApplyAction] at h
  dsimp only at h
  split at h
  · exact absurd h (by simp)
  · split at h
    · exact absurd h (by simp)
    · split at h
      · exact absurd h (by simp)
      · split at h
        · exact absurd h (by simp)
        · split at h
          · exact absurd h (by simp)
          · rename_i structured hdec
            split at h
            · split at h
              · split at h <;>
                  (simp only [Option.some.injEq] at h; subst h; exact ⟨rfl, .inl ⟨rfl, rfl⟩⟩)
              · exact absurd h (by simp)
            · split at h
              · split at h
                · simp only [Option.some.injEq] at h
                  subst h
                  exact ⟨rfl, .inl ⟨rfl, rfl⟩⟩
                · exact absurd h (by simp)
              · split at h
                · split at h
                  · simp only [Option.some.injEq] at h
                    subst h
                    exact ⟨rfl, .inl ⟨rfl, rfl⟩⟩
                  · exact absurd h (by simp)
                · split at h
                  · split at h
                    · simp only [Option.some.injEq] at h
                      subst h
                      exact ⟨rfl, .inl ⟨rfl, rfl⟩⟩
                    · exact absurd h (by simp)
                  · split at h
                    · split at h
                      · exact absurd h (by simp)
                      · rename_i fills1 m1 hadd1
                        split at h
                        · exact absurd h (by simp)
                        · rename_i fills2 m2 hadd2
                          simp only [Option.some.injEq] at h
                          subst h
                          exact ⟨rfl, .inr ⟨_, fills1, fills2, m1, m2, hadd1, hadd2,
                            rfl, rfl⟩⟩
                    · exact absurd h (by simp)

theorem applyActionSeq_snoc (c : Config) (acts : List Int) (a : Int) :
    applyActionSeq c (acts ++ [a]) =
      (applyActionSeq c acts).bind fun s => DoApplyAction c s a := by
  simp only [applyActionSeq, List.foldl_append, List.foldl_cons, List.foldl_nil]

theorem reachable_invariant (c : Config) (hnp : 0 < c.num_players) :
    ∀ (acts : List Int) (s : HighLowTradingState), applyActionSeq c acts = some s →
      s.player_positions.length = c.num_players ∧
      sumContracts s.player_positions = 0 ∧ sumCash s.player_positions = 0 ∧
      ((s.market.buy_orders : Multiset OrderEntry).map (·.tid) +
        (s.market.sell_orders : Multiset OrderEntry).map (·.tid)).Nodup ∧
      (∀ t ∈ (s.market.buy_orders : Multiset OrderEntry).map (·.tid) +
        (s.market.sell_orders : Multiset OrderEntry).map (·.tid), t < 2 * s.moveNumber) ∧
      (∀ i ∈ (s.market.buy_orders : Multiset OrderEntry).map (·.customer_id) +
        (s.market.sell_orders : Multiset OrderEntry).map (·.customer_id),
        i < c.num_players) := by
  intro acts
  induction acts using List.reverseRecOn with
  | nil =>
    intro s h
    simp only [applyActionSeq, List.foldl_nil, Option.some.injEq] at h
    subst h
    refine ⟨by simp [initialState], ?_, ?_, by simp [initialState], ?_, ?_⟩
    · simp [initialState, sumContracts]
    · simp [initialState, sumCash]
    · intro t ht
      simp [initialState] at ht
    · intro i hi
      simp [initialState] at hi
  | append_singleton acts a ih =>
    intro s h
    rw [applyActionSeq_snoc] at h
    cases h0 : applyActionSeq c acts with
    | none => rw [h0] at h; exact absurd h (by simp)
    | some s0 =>
      rw [h0] at h
      rw [Option.some_bind] at h
      obtain ⟨hlen0, hsc0, hsm0, hnd0, hbound0, hids0⟩ := ih s0 h0
      obtain ⟨hmv, hcase⟩ := DoApplyAction_cases c s0 a s h
      rcases hcase with ⟨hpos, hmkt⟩ | ⟨q, fills1, fills2, m1, m2, hadd1, hadd2, hmkt, hpos⟩
      · rw [hpos, hmkt]
        refine ⟨hlen0, hsc0, hsm0, hnd0, ?_, hids0⟩
        intro t ht
        have := hbound0 t ht
        omega
      · have hfresh1 : (2 * s0.moveNumber) ∉
            (s0.market.buy_orders : Multiset OrderEntry).map (·.tid) +
              (s0.market.sell_orders : Multiset OrderEntry).map (·.tid) := by
          intro hmem
          have := hbound0 _ hmem
          omega
        have hle1 := AddOrder_map_le (·.tid) (fun o sz b => rfl) hadd1
        have hnd1 : ((m1.buy_orders : Multiset OrderEntry).map (·.tid) +
            (m1.sell_orders : Multiset OrderEntry).map (·.tid)).Nodup :=
          Multiset.nodup_of_le hle1 (Multiset.nodup_cons.mpr ⟨hfresh1, hnd0⟩)
        have hbound1 : ∀ t ∈ (m1.buy_orders : Multiset OrderEntry).map (·.tid) +
            (m1.sell_orders : Multiset OrderEntry).map (·.tid),
            t < 2 * s0.moveNumber + 1 := by
          intro t ht
          have := Multiset.mem_of_le hle1 ht
          rw [Multiset.mem_cons] at this
          rcases this with h' | h'
          · dsimp only at h'
            omega
          · have := hbound0 t h'
            omega
        have hle2 := AddOrder_map_le (·.tid) (fun o sz b => rfl) hadd2
        have hfresh2 : (2 * s0.moveNumber + 1) ∉
            (m1.buy_orders : Multiset OrderEntry).map (·.tid) +
              (m1.sell_orders : Multiset OrderEntry).map (·.tid) := by
          intro hmem
          have := hbound1 _ hmem
          omega
        have hnd2 : ((m2.buy_orders : Multiset OrderEntry).map (·.tid) +
            (m2.sell_orders : Multiset OrderEntry).map (·.tid)).Nodup :=
          Multiset.nodup_of_le hle2 (Multiset.nodup_cons.mpr ⟨hfresh2, hnd1⟩)
        have hbound2 : ∀ t ∈ (m2.buy_orders : Multiset OrderEntry).map (·.tid) +
            (m2.sell_orders : Multiset OrderEntry).map (·.tid),
            t < 2 * (s0.moveNumber + 1) := by
          intro t ht
          have := Multiset.mem_of_le hle2 ht
          rw [Multiset.mem_cons] at this
          rcases this with h' | h'
          · dsimp only at h'
            omega
          · have := hbound1 t h'
            omega
        have hplt : (s0.moveNumber - MaxChanceNodesInHistory c) % c.num_players <
            c.num_players := Nat.mod_lt _ hnp
        have hidle1 := AddOrder_map_le (·.customer_id) (fun o sz b => rfl) hadd1
        have hids1 : ∀ i ∈ (m1.buy_orders : Multiset OrderEntry).map (·.customer_id) +
            (m1.sell_orders : Multiset OrderEntry).map (·.customer_id),
            i < c.num_players := by
          intro i hi
          have := Multiset.mem_of_le hidle1 hi
          rw [Multiset.mem_cons] at this
          rcases this with h' | h'
          · rw [h']; exact hplt
          · exact hids0 i h'
        have hidle2 := AddOrder_map_le (·.customer_id) (fun o sz b => rfl) hadd2
        have hids2 : ∀ i ∈ (m2.buy_orders : Multiset OrderEntry).map (·.customer_id) +
            (m2.sell_orders : Multiset OrderEntry).map (·.customer_id),
            i < c.num_players := by
          intro i hi
          have := Multiset.mem_of_le hidle2 hi
          rw [Multiset.mem_cons] at this
          rcases this with h' | h'
          · rw [h']; exact hplt
          · exact hids1 i h'
        have hfillids : ∀ f ∈ fills1 ++ fills2,
            f.customer_id < s0.player_positions.length ∧
            f.quoter_id < s0.player_positions.length := by
          intro f hf
          rw [hlen0]
          rcases List.mem_append.mp hf with hf | hf
          · obtain ⟨h1, h2⟩ := AddOrder_fill_ids hadd1 f hf
            rw [Multiset.mem_cons] at h1 h2
            constructor
            · rcases h1 with h' | h'
              · rw [h']; exact hplt
              · exact hids0 _ h'
            · rcases h2 with h' | h'
              · rw [h']; exact hplt
              · exact hids0 _ h'
          · obtain ⟨h1, h2⟩ := AddOrder_fill_ids hadd2 f hf
            rw [Multiset.mem_cons] at h1 h2
            constructor
            · rcases h1 with h' | h'
              · rw [h']; exact hplt
              · exact hids1 _ h'
            · rcases h2 with h' | h'
              · rw [h']; exact hplt
              · exact hids1 _ h'
        obtain ⟨hfsc, hfsm, hflen⟩ :=
          foldl_applyFill_spec (fills1 ++ fills2) s0.player_positions hfillids
        rw [hpos, hmkt]
        refine ⟨by rw [hflen, hlen0], by rw [hfsc, hsc0], by rw [hfsm, hsm0], hnd2, ?_, hids2⟩
        intro t ht
        rw [hmv]
        exact hbound2 t ht

theorem marketTids_ms (m : Market) :
    ((marketTids m : List Nat) : Multiset Nat) =
      (m.buy_orders : Multiset OrderEntry).map (·.tid) +
        (m.sell_orders : Multiset OrderEntry).map (·.tid) := by
  simp [marketTids]

/-! ## The claims -/

/-- C1: the claim says `game_phase_of_timestep` matches the spec table built
on `num_customers = num_players - 3`: `kCustomerSize` for
`4 ≤ m < 4 + num_customers`, `kPlayerTrading` until `total_moves`, and
`kTerminal` at `m = total_moves`.  The code instead uses
`4 + num_players` as the customer-size boundary.  With `num_players = 4`,
`steps_per_player = 1` (so `num_customers = 1`, `chance_moves = 5`,
`total_moves = 9`), move 5 lies in the claimed `kPlayerTrading` range but
the code returns `kCustomerSize`, and move `9 = total_moves` (claimed
`kTerminal`) returns `kPlayerTrading`.  This theorem evaluates the code at
that failing input. -/
theorem C1_phase_table_divergence :
    MaxChanceNodesInHistory ⟨1, 1, 1, 2, 4⟩ = 5 ∧
    MaxGameLength ⟨1, 1, 1, 2, 4⟩ = 9 ∧
    game_phase_of_timestep ⟨1, 1, 1, 2, 4⟩ 5 = GamePhase.kCustomerSize ∧
    game_phase_of_timestep ⟨1, 1, 1, 2, 4⟩ 9 = GamePhase.kPlayerTrading := by
  refine ⟨rfl, rfl, rfl, rfl⟩

/-- C6: in the documented scenario (`num_players = 4`,
`steps_per_player = 2`, `max_contracts_per_trade = 2`,
`customer_max_size = 3`, `max_contract_value = 30`; chance draws
`v1 = 5` (raw 4), `v2 = 25` (raw 24), `is_high` (raw 1), permutation rank
21, customer target `+2` (raw 4)), Player 0's quote `bid 1 / ask 30 sizes
1x1` encodes to raw id 3629; the code aborts on it at move 5, because
`game_phase_of_timestep` still reports `kCustomerSize` there (range
`[0, 6]`), so the claimed single fill at price 29 never happens. -/
theorem C6_scenario_aborts :
    StructuredToRawAction ⟨2, 2, 3, 30, 4⟩ .kPlayerTrading
        (.quote ⟨1, 1, 1, 30⟩) = some 3629 ∧
    applyActionSeq ⟨2, 2, 3, 30, 4⟩ [4, 24, 1, 21, 4] ≠ none ∧
    game_phase_of_timestep ⟨2, 2, 3, 30, 4⟩ 5 = GamePhase.kCustomerSize ∧
    valid_action_range ⟨2, 2, 3, 30, 4⟩ .kCustomerSize = some (0, 6) ∧
    applyActionSeq ⟨2, 2, 3, 30, 4⟩ [4, 24, 1, 21, 4, 3629] = none := by
  refine ⟨by decide, by decide, rfl, by decide, by decide⟩

/-- C8: for every `n` in `[1, 10]` and `k < n!`, `nth_permutation k n` is a
permutation of `[0, n)` whose `permutation_rank` is `k`; conversely
`nth_permutation (permutation_rank p) n = p` for every permutation `p` of
`[0, n)`. -/
theorem C8_permutation_codec_roundtrip (n k : Nat) (h1 : 1 ≤ n) (h10 : n ≤ 10)
    (hk : k < factorial n) :
    ((nth_permutation k n).Perm (List.range n) ∧
      permutation_rank (nth_permutation k n) = k) ∧
    ∀ p : List Nat, p.Perm (List.range n) →
      nth_permutation (permutation_rank p) n = p :=
  ⟨⟨nth_permutation_perm hk, permutation_rank_nth_permutation hk⟩,
    fun _ hp => nth_permutation_permutation_rank hp⟩

theorem C8_permutation_codec_roundtrip_witness :
    (1 ≤ 3 ∧ 3 ≤ 10 ∧ 4 < factorial 3) ∧
    ((nth_permutation 4 3).Perm (List.range 3) ∧
      permutation_rank (nth_permutation 4 3) = 4) ∧
    nth_permutation (permutation_rank [2, 0, 1]) 3 = [2, 0, 1] :=
  ⟨⟨by decide, by decide, by decide⟩,
    (C8_permutation_codec_roundtrip 3 4 (by decide) (by decide) (by decide)).1,
    (C8_permutation_codec_roundtrip 3 4 (by decide) (by decide) (by decide)).2
      [2, 0, 1] (by decide)⟩

/-- C3: every fill emitted by a matching iteration arises from a crossing
pair of queue tops (both sides non-empty, best ask price at most best bid
price), executes at the price of the smaller-tid (resting) order and for
the minimum of the two sizes; the matching loop emits nothing when a side
is empty or the best bid is below the best ask; and every fill returned by
`AddOrder` arises from such an iteration. -/
theorem C3_fill_price_size_crossing :
    (∀ (m : Market) (f : OrderFillEntry) (m' : Market), matchStep m = .trade f m' →
      m.buy_orders ≠ [] ∧ m.sell_orders ≠ [] ∧
      (heapTop m.sell_orders).price ≤ (heapTop m.buy_orders).price ∧
      f.size = min (heapTop m.buy_orders).size (heapTop m.sell_orders).size ∧
      f.price = (if (heapTop m.sell_orders).tid < (heapTop m.buy_orders).tid
          then heapTop m.sell_orders else heapTop m.buy_orders).price) ∧
    (∀ m : Market, (m.buy_orders = [] ∨ m.sell_orders = [] ∨
        (heapTop m.buy_orders).price < (heapTop m.sell_orders).price) →
      MatchOrders m = some ([], m)) ∧
    (∀ (m : Market) (o : OrderEntry) (fs : List OrderFillEntry) (m' : Market),
      AddOrder m o = some (fs, m') →
      ∀ f ∈ fs, ∃ m1 m2, matchStep m1 = .trade f m2) := by
  refine ⟨?_, ?_, ?_⟩
  · intro m f m' h
    obtain ⟨h1, h2, h3, _, h5, h6, _⟩ := matchStep_trade_spec h
    exact ⟨h1, h2, h3, h5, h6⟩
  · intro m h
    exact MatchOrders_no_cross h
  · intro m o fs m' h
    exact AddOrder_fills_origin h

theorem C3_fill_price_size_crossing_witness :
    (([⟨12, 1, 7, 3, true⟩] : List OrderEntry) ≠ [] ∧
      ([⟨10, 1, 1, 0, false⟩] : List OrderEntry) ≠ [] ∧
      (heapTop [⟨10, 1, 1, 0, false⟩]).price ≤ (heapTop [⟨12, 1, 7, 3, true⟩]).price ∧
      (⟨10, 1, 1, 1, 0, 3, 1, true⟩ : OrderFillEntry).size =
        min (heapTop [⟨12, 1, 7, 3, true⟩]).size (heapTop [⟨10, 1, 1, 0, false⟩]).size ∧
      (⟨10, 1, 1, 1, 0, 3, 1, true⟩ : OrderFillEntry).price =
        (if (heapTop [⟨10, 1, 1, 0, false⟩]).tid < (heapTop [⟨12, 1, 7, 3, true⟩]).tid
          then heapTop [⟨10, 1, 1, 0, false⟩] else heapTop [⟨12, 1, 7, 3, true⟩]).price) ∧
    MatchOrders ⟨[], []⟩ = some ([], ⟨[], []⟩) ∧
    (∃ m1 m2, matchStep m1 = .trade ⟨10, 1, 1, 1, 0, 3, 1, true⟩ m2) :=
  ⟨C3_fill_price_size_crossing.1 ⟨[⟨12, 1, 7, 3, true⟩], [⟨10, 1, 1, 0, false⟩]⟩
      ⟨10, 1, 1, 1, 0, 3, 1, true⟩ ⟨[], []⟩ (by decide),
    C3_fill_price_size_crossing.2.1 ⟨[], []⟩ (Or.inl rfl),
    C3_fill_price_size_crossing.2.2 ⟨[], [⟨10, 1, 1, 0, false⟩]⟩ ⟨12, 1, 7, 3, true⟩
      [⟨10, 1, 1, 1, 0, 3, 1, true⟩] ⟨[], []⟩ (by decide)
      ⟨10, 1, 1, 1, 0, 3, 1, true⟩ (by decide)⟩

/-- C5: starting from the initial state, every sequence of successful
`DoApplyAction` calls keeps the sum of all players' contracts and the sum
of all players' cash at zero; and applying one fill to the two parties
(both in range) leaves both sums unchanged. -/
theorem C5_conservation (c : Config) (hnp : 4 ≤ c.num_players) :
    (∀ (acts : List Int) (s : HighLowTradingState), applyActionSeq c acts = some s →
      sumContracts s.player_positions = 0 ∧ sumCash s.player_positions = 0) ∧
    (∀ (ps : List PlayerPosition) (f : OrderFillEntry),
      f.customer_id < ps.length → f.quoter_id < ps.length →
      sumContracts (applyFill ps f) = sumContracts ps ∧
      sumCash (applyFill ps f) = sumCash ps) := by
  refine ⟨fun acts s h => ?_, fun ps f hc hq => ?_⟩
  · obtain ⟨_, h1, h2, _⟩ := reachable_invariant c (by omega) acts s h
    exact ⟨h1, h2⟩
  · obtain ⟨h1, h2, _⟩ := applyFill_spec ps f hc hq
    exact ⟨h1, h2⟩

theorem C5_conservation_witness :
    (sumContracts (initialState ⟨2, 2, 3, 30, 4⟩).player_positions = 0 ∧
      sumCash (initialState ⟨2, 2, 3, 30, 4⟩).player_positions = 0) ∧
    (sumContracts (applyFill [⟨0, 0⟩, ⟨0, 0⟩] ⟨29, 1, 13, 1, 1, 0, 13, true⟩) =
        sumContracts [⟨0, 0⟩, ⟨0, 0⟩] ∧
      sumCash (applyFill [⟨0, 0⟩, ⟨0, 0⟩] ⟨29, 1, 13, 1, 1, 0, 13, true⟩) =
        sumCash [⟨0, 0⟩, ⟨0, 0⟩]) :=
  ⟨(C5_conservation ⟨2, 2, 3, 30, 4⟩ (by decide)).1 [] (initialState ⟨2, 2, 3, 30, 4⟩) rfl,
    (C5_conservation ⟨2, 2, 3, 30, 4⟩ (by decide)).2 [⟨0, 0⟩, ⟨0, 0⟩]
      ⟨29, 1, 13, 1, 1, 0, 13, true⟩ (by decide) (by decide)⟩

/-- C7: in a terminal state, `Returns` is defined and the return of each
player `j` is their cash plus their contracts times the settlement
(`max` of the two drawn values if the high flag is set, else `min`),
reduced by `|target_j - contracts_j| * max_contract_value` when player
`j`'s target is nonzero. -/
theorem C7_terminal_returns (c : Config) (s : HighLowTradingState) (j : Nat)
    (hterm : IsTerminal c s = true) (hj : j < c.num_players) :
    ∃ rs : List Int, Returns c s = some rs ∧
      rs.getD j 0 =
        (s.player_positions.getD j default).cash_balance +
          (s.player_positions.getD j default).num_contracts *
            (if s.is_high then max s.contract_value1 s.contract_value0
             else min s.contract_value1 s.contract_value0) -
          (if s.player_target_positions.getD j 0 ≠ 0 then
            |s.player_target_positions.getD j 0 -
              (s.player_positions.getD j default).num_contracts| *
              (c.max_contract_value : Int)
           else 0) := by
  have hmv : MaxGameLength c ≤ s.moveNumber := by
    simpa [IsTerminal] using hterm
  have h3 : 3 ≤ s.moveNumber := by
    have : 4 ≤ MaxGameLength c := by
      rw [MaxGameLength, MaxChanceNodesInHistory]
      omega
    omega
  rw [Returns, GetContractValue, if_pos h3]
  rw [Option.map_some']
  refine ⟨_, rfl, ?_⟩
  have hjlen : j < ((List.range c.num_players).map fun j =>
      let pos := s.player_positions.getD j default
      let player_return := pos.cash_balance + pos.num_contracts *
        (if s.is_high then max s.contract_value1 s.contract_value0
         else min s.contract_value1 s.contract_value0)
      let target := s.player_target_positions.getD j 0
      if target ≠ 0 then
        let position_diff := target - pos.num_contracts
        player_return -
          (if 0 < position_diff then position_diff else -position_diff) *
            (c.max_contract_value : Int)
      else player_return).length := by
    simpa using hj
  rw [List.getD_eq_getElem _ _ hjlen]
  rw [List.getElem_map]
  rw [List.getElem_range]
  dsimp only
  by_cases htgt : s.player_target_positions.getD j 0 ≠ 0
  · rw [if_pos htgt, if_pos htgt]
    have habs : (if 0 < s.player_target_positions.getD j 0 -
          (s.player_positions.getD j default).num_contracts then
        s.player_target_positions.getD j 0 -
          (s.player_positions.getD j default).num_contracts
      else -(s.player_target_positions.getD j 0 -
          (s.player_positions.getD j default).num_contracts)) =
        |s.player_target_positions.getD j 0 -
          (s.player_positions.getD j default).num_contracts| := by
      split_ifs with hpos
      · exact (abs_of_pos hpos).symm
      · exact (abs_of_nonpos (by omega)).symm
    rw [habs]
  · rw [if_neg htgt, if_neg htgt, sub_zero]

/-- C9: one matching iteration aborts fatally exactly when both queue tops
exist, cross, and carry the same tid; in every state reachable from the
initial state by successful `DoApplyAction` calls, the resting tids are
pairwise distinct and bounded by `2 * move_number`, so submitting the next
quote's bid (tid `2 * move_number`) and then its ask (tid
`2 * move_number + 1`) can never reach that fatal branch. -/
theorem C9_tid_uniqueness_no_fatal (c : Config) (hnp : 4 ≤ c.num_players) :
    (∀ m : Market, matchStep m = .fatal ↔ m.buy_orders ≠ [] ∧ m.sell_orders ≠ [] ∧
      (heapTop m.sell_orders).price ≤ (heapTop m.buy_orders).price ∧
      (heapTop m.buy_orders).tid = (heapTop m.sell_orders).tid) ∧
    (∀ (acts : List Int) (s : HighLowTradingState), applyActionSeq c acts = some s →
      (marketTids s.market).Nodup ∧
      (∀ t ∈ marketTids s.market, t < 2 * s.moveNumber) ∧
      (∀ o1 : OrderEntry, o1.tid = 2 * s.moveNumber → AddOrder s.market o1 ≠ none) ∧
      (∀ (o1 o2 : OrderEntry) (fs1 : List OrderFillEntry) (m1 : Market),
        o1.tid = 2 * s.moveNumber → o2.tid = 2 * s.moveNumber + 1 →
        AddOrder s.market o1 = some (fs1, m1) → AddOrder m1 o2 ≠ none)) := by
  refine ⟨matchStep_fatal_iff, fun acts s h => ?_⟩
  obtain ⟨_, _, _, hnd, hbound, _⟩ := reachable_invariant c (by omega) acts s h
  have hndl : (marketTids s.market).Nodup := by
    rw [← Multiset.coe_nodup, marketTids_ms]
    exact hnd
  have hboundl : ∀ t ∈ marketTids s.market, t < 2 * s.moveNumber := by
    intro t ht
    exact hbound t (by rw [← marketTids_ms]; exact ht)
  refine ⟨hndl, hboundl, fun o1 h1 => ?_, fun o1 o2 fs1 m1 h1 h2 hadd1 => ?_⟩
  · apply AddOrder_no_fatal hnd
    intro hmem
    have := hbound _ hmem
    omega
  · have hle1 := AddOrder_map_le (·.tid) (fun o sz b => rfl) hadd1
    have hfresh1 : o1.tid ∉ (s.market.buy_orders : Multiset OrderEntry).map (·.tid) +
        (s.market.sell_orders : Multiset OrderEntry).map (·.tid) := by
      intro hmem
      have := hbound _ hmem
      omega
    have hnd1 : ((m1.buy_orders : Multiset OrderEntry).map (·.tid) +
        (m1.sell_orders : Multiset OrderEntry).map (·.tid)).Nodup :=
      Multiset.nodup_of_le hle1 (Multiset.nodup_cons.mpr ⟨hfresh1, hnd⟩)
    apply AddOrder_no_fatal hnd1
    intro hmem
    have := Multiset.mem_of_le hle1 hmem
    rw [Multiset.mem_cons] at this
    rcases this with h' | h'
    · dsimp only at h'
      omega
    · have := hbound _ h'
      omega

theorem RawToStructuredAction_range {c : Config} {phase : GamePhase} {k : Int}
    {a : ActionVariant} {lo hi : Int} (h : RawToStructuredAction c phase k = some a)
    (hr : valid_action_range c phase = some (lo, hi)) : lo ≤ k ∧ k ≤ hi := by
  rw [RawToStructuredAction.eq_def, hr] at h
  dsimp only at h
  split at h
  · exact absurd h (by simp)
  · rename_i hcond
    push_neg at hcond
    omega

theorem phase_trading_bounds {c : Config} {t : Nat}
    (h : game_phase_of_timestep c t = .kPlayerTrading) :
    4 + c.num_players ≤ t ∧
      t < 4 + c.num_players + c.steps_per_player * c.num_players := by
  rw [game_phase_of_timestep] at h
  split_ifs at h with h1 h2 h3 h4 h5
  omega

theorem AddOrder_empty_bid (o : OrderEntry) (hsz : o.size ≠ 0) (hb : o.is_bid = true) :
    AddOrder ⟨[], []⟩ o = some ([], ⟨[o], []⟩) := by
  rw [AddOrder, if_neg hsz]
  rw [if_pos hb]
  exact MatchOrders_no_cross (Or.inr (Or.inl rfl))

theorem AddOrder_cross_resting_bid (b a : OrderEntry) (hsz : a.size ≠ 0)
    (hbid : a.is_bid = false) (hcross : ¬ b.price < a.price) (htid : b.tid < a.tid) :
    ∃ m2, AddOrder ⟨[b], []⟩ a =
      some ([⟨b.price, min b.size a.size, b.tid, b.size, b.customer_id, a.customer_id,
        b.tid, false⟩], m2) := by
  rw [AddOrder, if_neg hsz, if_neg (by rw [hbid]; exact Bool.false_ne_true)]
  have hpush : heapPush OrderEntryLess [] a = [a] := rfl
  simp only [hpush]
  have hstep : matchStep ⟨[b], [a]⟩ =
      .trade ⟨b.price, min b.size a.size, b.tid, b.size, b.customer_id, a.customer_id,
          b.tid, false⟩
        ⟨if b.size - min b.size a.size > 0 then
            heapPush OrderEntryLess [] ⟨b.price, b.size - min b.size a.size, b.tid,
              b.customer_id, true⟩
          else [],
          if a.size - min b.size a.size > 0 then
            heapPush OrderEntryLess [] ⟨a.price, a.size - min b.size a.size, a.tid,
              a.customer_id, false⟩
          else []⟩ := by
    rw [matchStep]
    rw [if_neg (by simp)]
    dsimp only
    rw [show heapTop [b] = b from rfl, show heapTop [a] = a from rfl,
      show heapPop OrderEntryLess [b] = [] from rfl,
      show heapPop OrderEntryLess [a] = [] from rfl]
    rw [if_neg hcross]
    rw [if_neg (by omega)]
    have hsq : decide (a.tid < b.tid) = false := by
      rw [decide_eq_false_iff_not]
      omega
    rw [hsq]
    simp only [Bool.false_eq_true, if_false]
  by_cases hmin : b.size ≤ a.size
  · have hb0 : ¬ (b.size - min b.size a.size > 0) := by omega
    have hrun : matchOrdersF ((1 : Nat) + 1) ⟨[b], [a]⟩ =
        some ([⟨b.price, min b.size a.size, b.tid, b.size, b.customer_id,
          a.customer_id, b.tid, false⟩],
          ⟨[], if a.size - min b.size a.size > 0 then
              heapPush OrderEntryLess [] ⟨a.price, a.size - min b.size a.size, a.tid,
                a.customer_id, false⟩
            else []⟩) := by
      rw [matchOrdersF, hstep]
      dsimp only
      rw [if_neg hb0]
      rw [matchOrdersF_no_cross 1 (Or.inl rfl)]
    exact ⟨_, hrun⟩
  · have ha0 : ¬ (a.size - min b.size a.size > 0) := by omega
    have hrun : matchOrdersF ((1 : Nat) + 1) ⟨[b], [a]⟩ =
        some ([⟨b.price, min b.size a.size, b.tid, b.size, b.customer_id,
          a.customer_id, b.tid, false⟩],
          ⟨if b.size - min b.size a.size > 0 then
              heapPush OrderEntryLess [] ⟨b.price, b.size - min b.size a.size, b.tid,
                b.customer_id, true⟩
            else [], []⟩) := by
      rw [matchOrdersF, hstep]
      dsimp only
      rw [if_neg ha0]
      rw [matchOrdersF_no_cross 1 (Or.inr (Or.inl rfl))]
    exact ⟨_, hrun⟩

theorem updatePosition_getD_self (ps : List PlayerPosition) (i : Nat) (dc dm : Int) :
    (updatePosition ps i dc dm).getD i default =
      if i < ps.length then
        ⟨(ps.getD i default).num_contracts + dc, (ps.getD i default).cash_balance + dm⟩
      else default := by
  by_cases hi : i < ps.length
  · rw [if_pos hi, updatePosition]
    rw [List.getD_eq_getElem _ default (by simpa using hi)]
    exact List.getElem_set_self _
  · rw [if_neg hi, updatePosition]
    rw [List.getD_eq_default _ default (by simpa using hi)]

theorem applyFill_getD_self (ps : List PlayerPosition) (f : OrderFillEntry)
    (hqc : f.quoter_id = f.customer_id) :
    (applyFill ps f).getD f.customer_id default = ps.getD f.customer_id default := by
  rw [applyFill]
  have hlen : ∀ (dc dm : Int), (updatePosition ps f.customer_id dc dm).length =
      ps.length := by
    intro dc dm
    rw [updatePosition]
    exact List.length_set ..
  split <;> rw [hqc] <;>
    by_cases hi : f.customer_id < ps.length
  · rw [updatePosition_getD_self, if_pos (by rw [hlen]; exact hi),
      updatePosition_getD_self, if_pos hi]
    dsimp only
    conv_rhs => rw [show ps.getD f.customer_id default =
      (⟨(ps.getD f.customer_id default).num_contracts,
        (ps.getD f.customer_id default).cash_balance⟩ : PlayerPosition) from rfl]
    congr 1 <;> ring
  · rw [updatePosition_getD_self, if_neg (by rw [hlen]; exact hi),
      List.getD_eq_default _ default (by omega)]
  · rw [updatePosition_getD_self, if_pos (by rw [hlen]; exact hi),
      updatePosition_getD_self, if_pos hi]
    dsimp only
    conv_rhs => rw [show ps.getD f.customer_id default =
      (⟨(ps.getD f.customer_id default).num_contracts,
        (ps.getD f.customer_id default).cash_balance⟩ : PlayerPosition) from rfl]
    congr 1 <;> ring
  · rw [updatePosition_getD_self, if_neg (by rw [hlen]; exact hi),
      List.getD_eq_default _ default (by omega)]

theorem DoApplyAction_trading (c : Config) (s : HighLowTradingState) (raw : Int)
    (q : PlayerQuoteAction) {fills1 fills2 : List OrderFillEntry} {m1 m2 : Market}
    (hphase : game_phase_of_timestep c s.moveNumber = .kPlayerTrading)
    (hlt : s.moveNumber < MaxGameLength c)
    (hdec : RawToStructuredAction c (game_phase_of_timestep c s.moveNumber) raw =
      some (.quote q))
    (hadd1 : AddOrder s.market ⟨q.bid_price, q.bid_size.toNat, 2 * s.moveNumber,
        (s.moveNumber - MaxChanceNodesInHistory c) % c.num_players, true⟩ =
      some (fills1, m1))
    (hadd2 : AddOrder m1 ⟨q.ask_price, q.ask_size.toNat, 2 * s.moveNumber + 1,
        (s.moveNumber - MaxChanceNodesInHistory c) % c.num_players, false⟩ =
      some (fills2, m2)) :
    DoApplyAction c s raw = some { s with
      player_quotes := s.player_quotes ++
        [((s.moveNumber - MaxChanceNodesInHistory c) % c.num_players, q)],
      market := m2,
      order_fills := s.order_fills ++ (fills1 ++ fills2),
      player_positions := (fills1 ++ fills2).foldl applyFill s.player_positions,
      moveNumber := s.moveNumber + 1 } := by
  obtain ⟨hm1, hm2⟩ := phase_trading_bounds hphase
  have hrange := RawToStructuredAction_range hdec (by rw [hphase]; rfl)
  rw [DoApplyAction]
  dsimp only
  rw [if_neg (by omega)]
  rw [hphase] at hdec ⊢
  rw [show valid_action_range c .kPlayerTrading =
    some (0, ((c.max_contracts_per_trade + 1) * (c.max_contracts_per_trade + 1) *
      c.max_contract_value * c.max_contract_value : Int) - 1) from rfl]
  dsimp only
  rw [if_neg (by omega), if_neg (by omega)]
  rw [hdec]
  dsimp only
  have hmcn : MaxChanceNodesInHistory c ≤ s.moveNumber := by
    rw [MaxChanceNodesInHistory]
    omega
  rw [if_neg (by omega), if_neg (by omega), if_neg (by omega), if_neg (by omega)]
  rw [hadd1]
  dsimp only
  rw [hadd2]

/-- C10: a player's two-sided quote can cross itself.  At a trading move on
an empty book, a quote whose decoded bid price is at least its ask price and
whose sizes are both at least one produces exactly one fill, executed at
the bid's price with the player on both sides (the ask, tid
`2 * move_number + 1`, crosses the player's own resting bid, tid
`2 * move_number`), and applying that fill leaves the player's contract
count and cash balance unchanged. -/
theorem C10_self_cross (c : Config) (s : HighLowTradingState) (raw : Int)
    (q : PlayerQuoteAction)
    (hmkt : s.market = ⟨[], []⟩)
    (hphase : game_phase_of_timestep c s.moveNumber = .kPlayerTrading)
    (hlt : s.moveNumber < MaxGameLength c)
    (hdec : RawToStructuredAction c (game_phase_of_timestep c s.moveNumber) raw =
      some (.quote q))
    (hbs : 1 ≤ q.bid_size) (has : 1 ≤ q.ask_size) (hcross : q.ask_price ≤ q.bid_price) :
    ∃ s', DoApplyAction c s raw = some s' ∧
      s'.order_fills = s.order_fills ++
        [⟨q.bid_price, min q.bid_size.toNat q.ask_size.toNat, 2 * s.moveNumber,
          q.bid_size.toNat, (s.moveNumber - MaxChanceNodesInHistory c) % c.num_players,
          (s.moveNumber - MaxChanceNodesInHistory c) % c.num_players,
          2 * s.moveNumber, false⟩] ∧
      (s'.player_positions.getD
          ((s.moveNumber - MaxChanceNodesInHistory c) % c.num_players)
          default).num_contracts =
        (s.player_positions.getD
          ((s.moveNumber - MaxChanceNodesInHistory c) % c.num_players)
          default).num_contracts ∧
      (s'.player_positions.getD
          ((s.moveNumber - MaxChanceNodesInHistory c) % c.num_players)
          default).cash_balance =
        (s.player_positions.getD
          ((s.moveNumber - MaxChanceNodesInHistory c) % c.num_players)
          default).cash_balance := by
  have hadd1 : AddOrder s.market ⟨q.bid_price, q.bid_size.toNat, 2 * s.moveNumber,
      (s.moveNumber - MaxChanceNodesInHistory c) % c.num_players, true⟩ =
      some ([], ⟨[⟨q.bid_price, q.bid_size.toNat, 2 * s.moveNumber,
        (s.moveNumber - MaxChanceNodesInHistory c) % c.num_players, true⟩], []⟩) := by
    rw [hmkt]
    exact AddOrder_empty_bid _ (by simp only; omega) rfl
  obtain ⟨mend, hadd2⟩ := AddOrder_cross_resting_bid
    ⟨q.bid_price, q.bid_size.toNat, 2 * s.moveNumber,
      (s.moveNumber - MaxChanceNodesInHistory c) % c.num_players, true⟩
    ⟨q.ask_price, q.ask_size.toNat, 2 * s.moveNumber + 1,
      (s.moveNumber - MaxChanceNodesInHistory c) % c.num_players, false⟩
    (by simp only; omega) rfl (by simp only; omega) (by simp only; omega)
  have happ := DoApplyAction_trading c s raw q hphase hlt hdec hadd1 hadd2
  refine ⟨_, happ, ?_, ?_, ?_⟩
  · simp only [List.nil_append]
  · simp only [List.nil_append, List.foldl_cons, List.foldl_nil]
    exact congrArg PlayerPosition.num_contracts (applyFill_getD_self _ _ rfl)
  · simp only [List.nil_append, List.foldl_cons, List.foldl_nil]
    exact congrArg PlayerPosition.cash_balance (applyFill_getD_self _ _ rfl)

/-- C4: refuted.  `OrderEntryLess` compares prices only, so equal-priced
orders on one side are heap-equivalent and the book keeps no time
priority.  Concretely: sells at price 10 with tids 1 and 3 rest in the
book together with a sell at price 1 with tid 5; a crossing buy (tid 7)
fills the price-1 sell, and the heap pop reorders the two price-10 sells
so that tid 3 ends up on top; the next crossing buy (tid 9) then fills
the tid-3 sell, not the earlier tid-1 sell at the same price — contrary
to the claimed earlier-tid-first behaviour. -/
theorem C4_no_time_priority :
    OrderEntryLess ⟨10, 1, 1, 0, false⟩ ⟨10, 1, 3, 1, false⟩ = false ∧
    OrderEntryLess ⟨10, 1, 3, 1, false⟩ ⟨10, 1, 1, 0, false⟩ = false ∧
    AddOrder ⟨[], []⟩ ⟨10, 1, 1, 0, false⟩ =
      some ([], ⟨[], [⟨10, 1, 1, 0, false⟩]⟩) ∧
    AddOrder ⟨[], [⟨10, 1, 1, 0, false⟩]⟩ ⟨10, 1, 3, 1, false⟩ =
      some ([], ⟨[], [⟨10, 1, 1, 0, false⟩, ⟨10, 1, 3, 1, false⟩]⟩) ∧
    AddOrder ⟨[], [⟨10, 1, 1, 0, false⟩, ⟨10, 1, 3, 1, false⟩]⟩ ⟨1, 1, 5, 2, false⟩ =
      some ([], ⟨[], [⟨1, 1, 5, 2, false⟩, ⟨10, 1, 3, 1, false⟩,
        ⟨10, 1, 1, 0, false⟩]⟩) ∧
    AddOrder ⟨[], [⟨1, 1, 5, 2, false⟩, ⟨10, 1, 3, 1, false⟩, ⟨10, 1, 1, 0, false⟩]⟩
        ⟨12, 1, 7, 3, true⟩ =
      some ([⟨1, 1, 5, 1, 2, 3, 5, true⟩],
        ⟨[], [⟨10, 1, 3, 1, false⟩, ⟨10, 1, 1, 0, false⟩]⟩) ∧
    AddOrder ⟨[], [⟨10, 1, 3, 1, false⟩, ⟨10, 1, 1, 0, false⟩]⟩ ⟨12, 1, 9, 4, true⟩ =
      some ([⟨10, 1, 3, 1, 1, 4, 3, true⟩], ⟨[], [⟨10, 1, 1, 0, false⟩]⟩) := by
  decide

/-- Witness for C2 at the configuration of the sample game
(`steps_per_player = 2`, `max_contracts_per_trade = 2`,
`customer_max_size = 3`, `max_contract_value = 30`, `num_players = 4`):
raw customer-size action 4 decodes and re-encodes to itself. -/
theorem C2_codec_bijection_witness :
    (4 ≤ (⟨2, 2, 3, 30, 4⟩ : Config).num_players ∧
      (⟨2, 2, 3, 30, 4⟩ : Config).num_players ≤ 10 ∧
      2 ≤ (⟨2, 2, 3, 30, 4⟩ : Config).max_contract_value ∧
      1 ≤ (⟨2, 2, 3, 30, 4⟩ : Config).max_contracts_per_trade ∧
      1 ≤ (⟨2, 2, 3, 30, 4⟩ : Config).customer_max_size) ∧
    (∃ a, RawToStructuredAction ⟨2, 2, 3, 30, 4⟩ .kCustomerSize 4 = some a ∧
      StructuredToRawAction ⟨2, 2, 3, 30, 4⟩ .kCustomerSize a = some 4) :=
  ⟨⟨by decide, by decide, by decide, by decide, by decide⟩,
    (C2_codec_bijection ⟨2, 2, 3, 30, 4⟩ (by decide) (by decide) (by decide)
      (by decide) (by decide)).1 .kCustomerSize 0 6 4 (by decide) (by decide)
      (by decide) (by decide)⟩

/-- Witness for C7: the state reached after 13 moves of the sample-game
configuration is terminal, and player 0's return evaluates as specified
(here `0`: empty position, zero target). -/
theorem C7_terminal_returns_witness :
    IsTerminal ⟨2, 2, 3, 30, 4⟩
      { initialState ⟨2, 2, 3, 30, 4⟩ with moveNumber := 13 } = true ∧
    (0 : Nat) < (⟨2, 2, 3, 30, 4⟩ : Config).num_players ∧
    ∃ rs : List Int,
      Returns ⟨2, 2, 3, 30, 4⟩
        { initialState ⟨2, 2, 3, 30, 4⟩ with moveNumber := 13 } = some rs ∧
      rs.getD 0 0 = 0 :=
  ⟨by decide, by decide,
    C7_terminal_returns ⟨2, 2, 3, 30, 4⟩
      { initialState ⟨2, 2, 3, 30, 4⟩ with moveNumber := 13 } 0 (by decide) (by decide)⟩

/-- Witness for C9: the fatal characterisation fires on a concrete
crossing pair with equal tids, and in the (reachable) initial state the
resting tids are distinct and a fresh bid cannot abort. -/
theorem C9_tid_uniqueness_no_fatal_witness :
    matchStep ⟨[⟨10, 1, 5, 0, true⟩], [⟨9, 1, 5, 1, false⟩]⟩ = .fatal ∧
    (marketTids (initialState ⟨2, 2, 3, 30, 4⟩).market).Nodup ∧
    AddOrder (initialState ⟨2, 2, 3, 30, 4⟩).market ⟨10, 1, 0, 0, true⟩ ≠ none :=
  ⟨((C9_tid_uniqueness_no_fatal ⟨2, 2, 3, 30, 4⟩ (by decide)).1
      ⟨[⟨10, 1, 5, 0, true⟩], [⟨9, 1, 5, 1, false⟩]⟩).mpr
      ⟨by decide, by decide, by decide, by decide⟩,
    ((C9_tid_uniqueness_no_fatal ⟨2, 2, 3, 30, 4⟩ (by decide)).2 []
      (initialState ⟨2, 2, 3, 30, 4⟩) rfl).1,
    ((C9_tid_uniqueness_no_fatal ⟨2, 2, 3, 30, 4⟩ (by decide)).2 []
      (initialState ⟨2, 2, 3, 30, 4⟩) rfl).2.2.1 ⟨10, 1, 0, 0, true⟩ (by decide)⟩

/-- Witness for C10: at the trading move 8 of a 4-player game with
`steps_per_player = 1`, `max_contracts_per_trade = 2`,
`max_contract_value = 5`, raw action 111 decodes to the quote
(bid 1 @ 3, ask 1 @ 2); on the empty book it self-crosses into the single
fill at the bid price with player 3 on both sides, leaving player 3's
position unchanged. -/
theorem C10_self_cross_witness :
    ∃ s', DoApplyAction ⟨1, 2, 3, 5, 4⟩
        { initialState ⟨1, 2, 3, 5, 4⟩ with moveNumber := 8 } 111 = some s' ∧
      s'.order_fills = [⟨3, 1, 16, 1, 3, 3, 16, false⟩] ∧
      (s'.player_positions.getD 3 default).num_contracts = 0 ∧
      (s'.player_positions.getD 3 default).cash_balance = 0 :=
  C10_self_cross ⟨1, 2, 3, 5, 4⟩ { initialState ⟨1, 2, 3, 5, 4⟩ with moveNumber := 8 }
    111 ⟨1, 3, 1, 2⟩ rfl (by decide) (by decide) (by decide) (by decide) (by decide)
    (by decide)

end HighLowTrading
